import Mathlib

/-!
Shallow embedding of the ads-js positional containers (singly and doubly
linked lists), the preorder tree traversal, and the quick-select search,
together with proofs of the specification claims.

Linked nodes are modelled by an explicit arena: a node is an entry of a
`List` of node records, a pointer is the entry's index (`Option Nat`, with
`none` for the JS `undefined`).  Allocating a node (`new Node(...)`)
appends an entry, mutating a field replaces the entry in place.  Reference
equality of nodes (`node === this.tail`) becomes index equality, which is
faithful because distinct arena entries model distinct JS objects.
-/


namespace AdsJs

/-- Modelled from the spec: the error-signaling contract (§6) of the
`errors` module, which is not among the provided sources.  A single tagged
error kind from the documented taxonomy (§7). -/
inductive ErrKind where
  | invalidPosition
  | emptyContainer
  | notEmpty
  | slotOccupied
  | tooManyChildren
deriving DecidableEq, Repr

/-- Modelled from the spec: a Position is a handle made of a reference to
one node and a reference to the owning container (§3).  With the arena
model the node reference is the arena index and the container reference is
the container's identity tag. -/
structure ListPos where
  node : Nat
  owner : Nat
deriving DecidableEq, Repr

/-- In-place update of the arena entry at index `i` (the model of a field
assignment on a JS node object). -/
def updAt : List α → Nat → (α → α) → List α
  | [], _, _ => []
  | a :: rest, 0, f => f a :: rest
  | a :: rest, i + 1, f => a :: updAt rest i f

end AdsJs

namespace AdsJs.Singly

variable {T : Type}

/-- `Node` of `singly-linked-list.class.ts`: element plus reference to the
next node. -/
structure SNode (T : Type) where
  element : T
  next : Option Nat
deriving DecidableEq, Repr

/-- `SinglyLinkedList`: arena of every node the list ever allocated,
head/tail references and the size counter inherited from the positional
list abstraction. -/
structure SList (T : Type) where
  listId : Nat
  nodes : List (SNode T)
  head : Option Nat
  tail : Option Nat
  size : Nat
deriving DecidableEq, Repr

/-- `isDeprecated`: `node.next === node`. -/
def sIsDeprecated (nodes : List (SNode T)) (i : Nat) : Bool :=
  match nodes.get? i with
  | some nd => nd.next == some i
  | none => false

/-- Modelled from the spec: `createPosition` of the positional list
abstraction (`positional-list.class.ts` is not among the provided
sources); a position wraps the node and the owning container (§3, §4.1). -/
def sCreatePosition (l : SList T) (i : Nat) : ListPos :=
  ⟨i, l.listId⟩

/-- Modelled from the spec: `validate` of the positional list abstraction
(§4.1): fails with kind `InvalidPosition` when the position's owning
container is not this container or the referenced node is deprecated;
otherwise returns the node. -/
def sValidate (l : SList T) (p : ListPos) : Except ErrKind (Nat × SNode T) :=
  if p.owner = l.listId then
    match l.nodes.get? p.node with
    | some nd => if nd.next = some p.node then .error .invalidPosition else .ok (p.node, nd)
    | none => .error .invalidPosition
  else .error .invalidPosition

/-- The empty list produced by `new SinglyLinkedList()`. -/
def sEmpty : SList T :=
  ⟨0, [], none, none, 0⟩

/-- `addFirst`. -/
def sAddFirst (l : SList T) (el : T) : ListPos × SList T :=
  let newId := l.nodes.length
  match l.head with
  | none =>
    (sCreatePosition l newId,
      { l with nodes := l.nodes ++ [⟨el, none⟩],
               head := some newId, tail := some newId, size := l.size + 1 })
  | some h =>
    (sCreatePosition l newId,
      { l with nodes := l.nodes ++ [⟨el, some h⟩],
               head := some newId, size := l.size + 1 })

/-- `addLast`. -/
def sAddLast (l : SList T) (el : T) : ListPos × SList T :=
  let newId := l.nodes.length
  match l.tail with
  | none =>
    (sCreatePosition l newId,
      { l with nodes := l.nodes ++ [⟨el, none⟩],
               head := some newId, tail := some newId, size := l.size + 1 })
  | some t =>
    (sCreatePosition l newId,
      { l with nodes := updAt (l.nodes ++ [⟨el, none⟩]) t (fun nd => { nd with next := some newId }),
               tail := some newId, size := l.size + 1 })

/-- `addAfter`: validate, then `node.next = new Node(element, node.next)`,
reassign tail if the node was the tail, bump size. -/
def sAddAfter (l : SList T) (p : ListPos) (el : T) :
    Except ErrKind ListPos × SList T :=
  match sValidate l p with
  | .error e => (.error e, l)
  | .ok (n, nd) =>
    let newId := l.nodes.length
    let nodes' := updAt (l.nodes ++ [⟨el, nd.next⟩]) n (fun x => { x with next := some newId })
    let tail' := if l.tail = some n then some newId else l.tail
    (.ok (sCreatePosition l newId),
      { l with nodes := nodes', tail := tail', size := l.size + 1 })

/-- `removeFirst`: throws `EmptyContainer` ("List is empty") on an empty
list; otherwise advances head, clears tail when the list became empty,
self-links the removed node and decrements size.  The inner `none` branch
is unreachable for lists built by the public operations (head always
references an allocated node). -/
def sRemoveFirst (l : SList T) : Except ErrKind T × SList T :=
  match l.head with
  | none => (.error .emptyContainer, l)
  | some h =>
    match l.nodes.get? h with
    | none => (.error .emptyContainer, l)
    | some hd =>
      let head' := hd.next
      let tail' := if head' = none then none else l.tail
      (.ok hd.element,
        { l with nodes := updAt l.nodes h (fun x => { x with next := some h }),
                 head := head', tail := tail', size := l.size - 1 })

/-- `replace`: validate, swap the stored element, return the old one. -/
def sReplace (l : SList T) (p : ListPos) (el : T) : Except ErrKind T × SList T :=
  match sValidate l p with
  | .error e => (.error e, l)
  | .ok (n, nd) =>
    (.ok nd.element,
      { l with nodes := updAt l.nodes n (fun x => { x with element := el }) })

/-- `getAfter`: validate, then follow the successor link. -/
def sGetAfter (l : SList T) (p : ListPos) :
    Except ErrKind (Option ListPos) × SList T :=
  match sValidate l p with
  | .error e => (.error e, l)
  | .ok (_, nd) => (.ok (nd.next.map (sCreatePosition l)), l)

/-- `getFirst`. -/
def sGetFirst (l : SList T) : Option ListPos :=
  l.head.map (sCreatePosition l)

/-- `getLast`. -/
def sGetLast (l : SList T) : Option ListPos :=
  l.tail.map (sCreatePosition l)

/-- The deprecation walk of `clear(instant = false)`: starting at head,
remember the successor, self-link the node, move on.  Fuel bounds the walk
(the JS loop terminates because the chain from head is finite). -/
def sClearWalk (nodes : List (SNode T)) (cur : Option Nat) : Nat → List (SNode T)
  | 0 => nodes
  | fuel + 1 =>
    match cur with
    | none => nodes
    | some i =>
      match nodes.get? i with
      | none => nodes
      | some nd => sClearWalk (updAt nodes i (fun x => { x with next := some i })) nd.next fuel

/-- `clear(instant)`: when `instant` is false and the list has a head,
deprecate every node reachable from it; in both modes drop head/tail and
reset size. -/
def sClear (l : SList T) (instant : Bool) : SList T :=
  let nodes' :=
    if !instant then
      match l.head with
      | some _ => sClearWalk l.nodes l.head l.nodes.length
      | none => l.nodes
    else l.nodes
  { l with nodes := nodes', head := none, tail := none, size := 0 }

/-- The element sequence produced by the `[Symbol.iterator]` generator:
walk from head following successor links, yielding elements. -/
def sIterAux (nodes : List (SNode T)) (cur : Option Nat) : Nat → List T
  | 0 => []
  | fuel + 1 =>
    match cur with
    | none => []
    | some i =>
      match nodes.get? i with
      | none => []
      | some nd => nd.element :: sIterAux nodes nd.next fuel

def sToList (l : SList T) : List T :=
  sIterAux l.nodes l.head l.nodes.length

/-- The node indices visited walking from head along successor links. -/
def sReachAux (nodes : List (SNode T)) (cur : Option Nat) : Nat → List Nat
  | 0 => []
  | fuel + 1 =>
    match cur with
    | none => []
    | some i =>
      match nodes.get? i with
      | none => []
      | some nd => i :: sReachAux nodes nd.next fuel

def sReach (l : SList T) : List Nat :=
  sReachAux l.nodes l.head l.nodes.length

/-- The constructor `new SinglyLinkedList(elements)`: `addLast` every
element of the array in order. -/
def sFromArray (arr : List T) : SList T :=
  arr.foldl (fun l el => (sAddLast l el).2) sEmpty

/-- `sChain nodes cur ids stop`: starting from pointer `cur` and following
successor links, the walk visits exactly the nodes `ids` and ends with the
pointer `stop`. -/
def sChain (nodes : List (SNode T)) : Option Nat → List Nat → Option Nat → Prop
  | cur, [], stop => cur = stop
  | cur, i :: rest, stop =>
      cur = some i ∧ ∃ nd, nodes.get? i = some nd ∧ sChain nodes nd.next rest stop

/-- Well-formedness of a singly linked list state: some duplicate-free,
in-arena index sequence `ids` is chained from head to `none`, tail is its
last entry, size its length, and every non-deprecated node of the arena
occurs in it. -/
def SWFon (l : SList T) (ids : List Nat) : Prop :=
  ids.Nodup ∧
  (∀ i ∈ ids, i < l.nodes.length) ∧
  sChain l.nodes l.head ids none ∧
  l.tail = ids.getLast? ∧
  l.size = ids.length ∧
  (∀ i nd, l.nodes.get? i = some nd → nd.next ≠ some i → i ∈ ids)

def SWF (l : SList T) : Prop :=
  ∃ ids : List Nat, SWFon l ids

/-- Elements stored at a sequence of arena indices. -/
def elemsAlong (nodes : List (SNode T)) (ids : List Nat) : List T :=
  ids.filterMap (fun i => (nodes.get? i).map SNode.element)

/-- The mutating public operations of `SinglyLinkedList` (with `clearAll`
standing for `clear(false)`), used to quantify over every list state
reachable from a freshly constructed empty list. -/
inductive SOp (T : Type) where
  | addFirst (el : T)
  | addLast (el : T)
  | addAfter (p : ListPos) (el : T)
  | removeFirst
  | replaceAt (p : ListPos) (el : T)
  | clearAll

/-- One call: a thrown error propagates to the caller and the list is left
as the operation left it (for these operations, unchanged). -/
def sStep (l : SList T) : SOp T → SList T
  | .addFirst el => (sAddFirst l el).2
  | .addLast el => (sAddLast l el).2
  | .addAfter p el => (sAddAfter l p el).2
  | .removeFirst => (sRemoveFirst l).2
  | .replaceAt p el => (sReplace l p el).2
  | .clearAll => sClear l false

/-- The list state after a call sequence on a fresh empty list. -/
def sRun (ops : List (SOp T)) : SList T :=
  ops.foldl sStep sEmpty

end AdsJs.Singly

namespace AdsJs.Doubly

variable {T : Type}

/-- `Node` of `doubly-linked-list.class.ts`: element plus references to the
next and previous nodes. -/
structure DNode (T : Type) where
  element : T
  next : Option Nat
  prev : Option Nat
deriving DecidableEq, Repr

/-- `DoublyLinkedList`: arena, head/tail references and size counter. -/
structure DList (T : Type) where
  listId : Nat
  nodes : List (DNode T)
  head : Option Nat
  tail : Option Nat
  size : Nat
deriving DecidableEq, Repr

/-- `isDeprecated`: `node.next === node`. -/
def dIsDeprecated (nodes : List (DNode T)) (i : Nat) : Bool :=
  match nodes.get? i with
  | some nd => nd.next == some i
  | none => false

/-- Modelled from the spec: `createPosition` of the positional list
abstraction (source file not provided), as for the singly linked list. -/
def dCreatePosition (l : DList T) (i : Nat) : ListPos :=
  ⟨i, l.listId⟩

/-- Modelled from the spec: `validate` of the positional list abstraction
(§4.1), as for the singly linked list. -/
def dValidate (l : DList T) (p : ListPos) : Except ErrKind (Nat × DNode T) :=
  if p.owner = l.listId then
    match l.nodes.get? p.node with
    | some nd => if nd.next = some p.node then .error .invalidPosition else .ok (p.node, nd)
    | none => .error .invalidPosition
  else .error .invalidPosition

/-- The empty list produced by `new DoublyLinkedList()`. -/
def dEmpty : DList T :=
  ⟨0, [], none, none, 0⟩

/-- `insertBetween`: allocate `new Node(element, succ, pred)`, then rewire
`pred.next`/head and `succ.prev`/tail, and bump size. -/
def insertBetween (l : DList T) (el : T) (pred succ : Option Nat) : Nat × DList T :=
  let newId := l.nodes.length
  let nodes0 := l.nodes ++ [⟨el, succ, pred⟩]
  let nodes1 := match pred with
    | some p => updAt nodes0 p (fun x => { x with next := some newId })
    | none => nodes0
  let head' := match pred with
    | some _ => l.head
    | none => some newId
  let nodes2 := match succ with
    | some s => updAt nodes1 s (fun x => { x with prev := some newId })
    | none => nodes1
  let tail' := match succ with
    | some _ => l.tail
    | none => some newId
  (newId, { l with nodes := nodes2, head := head', tail := tail', size := l.size + 1 })

/-- `deleteNode`: rewire the neighbours (or head/tail) around the node,
self-link the node in both directions and decrement size.  The `none`
branch of the lookup is unreachable when the node id was produced by this
list. -/
def deleteNode (l : DList T) (n : Nat) : Option T × DList T :=
  match l.nodes.get? n with
  | none => (none, l)
  | some nd =>
    let nodes1 := match nd.prev with
      | some p => updAt l.nodes p (fun x => { x with next := nd.next })
      | none => l.nodes
    let head' := match nd.prev with
      | some _ => l.head
      | none => nd.next
    let nodes2 := match nd.next with
      | some s => updAt nodes1 s (fun x => { x with prev := nd.prev })
      | none => nodes1
    let tail' := match nd.next with
      | some _ => l.tail
      | none => nd.prev
    let nodes3 := updAt nodes2 n (fun x => { x with next := some n, prev := some n })
    (some nd.element, { l with nodes := nodes3, head := head', tail := tail', size := l.size - 1 })

/-- `addAfter`: validate, then insert between the node and its successor. -/
def dAddAfter (l : DList T) (p : ListPos) (el : T) : Except ErrKind ListPos × DList T :=
  match dValidate l p with
  | .error e => (.error e, l)
  | .ok (n, nd) =>
    let r := insertBetween l el (some n) nd.next
    (.ok (dCreatePosition l r.1), r.2)

/-- `addBefore`: validate, then insert between the node's predecessor and
the node. -/
def dAddBefore (l : DList T) (p : ListPos) (el : T) : Except ErrKind ListPos × DList T :=
  match dValidate l p with
  | .error e => (.error e, l)
  | .ok (n, nd) =>
    let r := insertBetween l el nd.prev (some n)
    (.ok (dCreatePosition l r.1), r.2)

/-- `addFirst`: insert between nothing and the head. -/
def dAddFirst (l : DList T) (el : T) : ListPos × DList T :=
  let r := insertBetween l el none l.head
  (dCreatePosition l r.1, r.2)

/-- `addLast`: insert between the tail and nothing. -/
def dAddLast (l : DList T) (el : T) : ListPos × DList T :=
  let r := insertBetween l el l.tail none
  (dCreatePosition l r.1, r.2)

/-- `delete`: validate, then `deleteNode`. -/
def dDelete (l : DList T) (p : ListPos) : Except ErrKind T × DList T :=
  match dValidate l p with
  | .error e => (.error e, l)
  | .ok (n, _) =>
    match deleteNode l n with
    | (some el, l') => (.ok el, l')
    | (none, l') => (.error .invalidPosition, l')

/-- `removeFirst`: `EmptyContainer` ("List is empty") on an empty list,
otherwise `deleteNode(head)`. -/
def dRemoveFirst (l : DList T) : Except ErrKind T × DList T :=
  match l.head with
  | none => (.error .emptyContainer, l)
  | some h =>
    match deleteNode l h with
    | (some el, l') => (.ok el, l')
    | (none, l') => (.error .emptyContainer, l')

/-- `removeLast`: `EmptyContainer` ("List is empty") on an empty list,
otherwise `deleteNode(tail)`. -/
def dRemoveLast (l : DList T) : Except ErrKind T × DList T :=
  match l.tail with
  | none => (.error .emptyContainer, l)
  | some t =>
    match deleteNode l t with
    | (some el, l') => (.ok el, l')
    | (none, l') => (.error .emptyContainer, l')

/-- `replace`. -/
def dReplace (l : DList T) (p : ListPos) (el : T) : Except ErrKind T × DList T :=
  match dValidate l p with
  | .error e => (.error e, l)
  | .ok (n, nd) =>
    (.ok nd.element,
      { l with nodes := updAt l.nodes n (fun x => { x with element := el }) })

/-- `getAfter`. -/
def dGetAfter (l : DList T) (p : ListPos) : Except ErrKind (Option ListPos) × DList T :=
  match dValidate l p with
  | .error e => (.error e, l)
  | .ok (_, nd) => (.ok (nd.next.map (dCreatePosition l)), l)

/-- `getBefore`. -/
def dGetBefore (l : DList T) (p : ListPos) : Except ErrKind (Option ListPos) × DList T :=
  match dValidate l p with
  | .error e => (.error e, l)
  | .ok (_, nd) => (.ok (nd.prev.map (dCreatePosition l)), l)

/-- `getFirst`. -/
def dGetFirst (l : DList T) : Option ListPos :=
  l.head.map (dCreatePosition l)

/-- `getLast`. -/
def dGetLast (l : DList T) : Option ListPos :=
  l.tail.map (dCreatePosition l)

/-- The deprecation walk of `clear(instant = false)`. -/
def dClearWalk (nodes : List (DNode T)) (cur : Option Nat) : Nat → List (DNode T)
  | 0 => nodes
  | fuel + 1 =>
    match cur with
    | none => nodes
    | some i =>
      match nodes.get? i with
      | none => nodes
      | some nd => dClearWalk (updAt nodes i (fun x => { x with next := some i })) nd.next fuel

/-- `clear(instant)`. -/
def dClear (l : DList T) (instant : Bool) : DList T :=
  let nodes' :=
    if !instant then
      match l.head with
      | some _ => dClearWalk l.nodes l.head l.nodes.length
      | none => l.nodes
    else l.nodes
  { l with nodes := nodes', head := none, tail := none, size := 0 }

/-- The `[Symbol.iterator]` generator sequence. -/
def dIterAux (nodes : List (DNode T)) (cur : Option Nat) : Nat → List T
  | 0 => []
  | fuel + 1 =>
    match cur with
    | none => []
    | some i =>
      match nodes.get? i with
      | none => []
      | some nd => nd.element :: dIterAux nodes nd.next fuel

def dToList (l : DList T) : List T :=
  dIterAux l.nodes l.head l.nodes.length

/-- Node indices visited walking from head along successor links. -/
def dReachAux (nodes : List (DNode T)) (cur : Option Nat) : Nat → List Nat
  | 0 => []
  | fuel + 1 =>
    match cur with
    | none => []
    | some i =>
      match nodes.get? i with
      | none => []
      | some nd => i :: dReachAux nodes nd.next fuel

def dReach (l : DList T) : List Nat :=
  dReachAux l.nodes l.head l.nodes.length

/-- The constructor `new DoublyLinkedList(elements)`. -/
def dFromArray (arr : List T) : DList T :=
  arr.foldl (fun l el => (dAddLast l el).2) dEmpty

/-- `dChain nodes pv cur ids stop`: starting with previous-pointer `pv` and
current pointer `cur`, following successor links visits exactly `ids`, each
node's `prev` naming the node before it, and the walk ends with pointer
`stop`. -/
def dChain (nodes : List (DNode T)) : Option Nat → Option Nat → List Nat → Option Nat → Prop
  | _, cur, [], stop => cur = stop
  | pv, cur, i :: rest, stop =>
      cur = some i ∧
        ∃ nd, nodes.get? i = some nd ∧ nd.prev = pv ∧
          dChain nodes (some i) nd.next rest stop

/-- The previous-pointer after consuming a segment. -/
def endPv (pv : Option Nat) (A : List Nat) : Option Nat :=
  match A.getLast? with
  | some a => some a
  | none => pv

/-- Elements stored at a sequence of arena indices. -/
def dElemsAlong (nodes : List (DNode T)) (ids : List Nat) : List T :=
  ids.filterMap (fun i => (nodes.get? i).map DNode.element)

/-- Well-formedness of a doubly linked list state. -/
def DWFon (l : DList T) (ids : List Nat) : Prop :=
  ids.Nodup ∧
  (∀ i ∈ ids, i < l.nodes.length) ∧
  dChain l.nodes none l.head ids none ∧
  l.tail = ids.getLast? ∧
  l.size = ids.length ∧
  (∀ i nd, l.nodes.get? i = some nd → nd.next ≠ some i → i ∈ ids)

def DWF (l : DList T) : Prop :=
  ∃ ids : List Nat, DWFon l ids

/-- The mutating public operations of `DoublyLinkedList` (with `clearAll`
standing for `clear(false)`). -/
inductive DOp (T : Type) where
  | addFirst (el : T)
  | addLast (el : T)
  | addAfter (p : ListPos) (el : T)
  | addBefore (p : ListPos) (el : T)
  | removeFirst
  | removeLast
  | delete (p : ListPos)
  | replaceAt (p : ListPos) (el : T)
  | clearAll

def dStep (l : DList T) : DOp T → DList T
  | .addFirst el => (dAddFirst l el).2
  | .addLast el => (dAddLast l el).2
  | .addAfter p el => (dAddAfter l p el).2
  | .addBefore p el => (dAddBefore l p el).2
  | .removeFirst => (dRemoveFirst l).2
  | .removeLast => (dRemoveLast l).2
  | .delete p => (dDelete l p).2
  | .replaceAt p el => (dReplace l p el).2
  | .clearAll => dClear l false

def dRun (ops : List (DOp T)) : DList T :=
  ops.foldl dStep dEmpty

end AdsJs.Doubly

namespace AdsJs.Trees

variable {T : Type}

/-- The binary tree shape behind the `IBinaryTreeTraversable` view used by
`preorder-traversal.ts`: an element with a left and a right child slot,
`nil` standing for an absent child (`getLeft`/`getRight` returning
undefined). -/
inductive BTree (T : Type) where
  | nil : BTree T
  | node : T → BTree T → BTree T → BTree T

/-- `PreorderTreeTraversal.traverseBinary`, collecting the callback
invocations as `(element, index)` pairs: visit the current element first,
then the left subtree if present, then the right subtree if present.
Modelled from the spec for the `index` metadata (the `traversal.class.ts`
that computes it is not among the provided sources): the spec fixes
`index` to number nodes in the order the strategy visits them, starting at
0 (§4.4), so the model threads that counter through the traversal and also
returns its final value. -/
def traverseBinary : BTree T → Nat → List (T × Nat) × Nat
  | .nil, idx => ([], idx)
  | .node el l r, idx =>
    let vl := traverseBinary l (idx + 1)
    let vr := traverseBinary r vl.2
    ((el, idx) :: (vl.1 ++ vr.1), vr.2)

/-- The element order of a preorder traversal: root, then left subtree,
then right subtree. -/
def preElems : BTree T → List T
  | .nil => []
  | .node el l r => el :: (preElems l ++ preElems r)

end AdsJs.Trees

namespace AdsJs.Searches

variable {T : Type}

/-- Modelled from the spec: the comparator contract of the `comparators`
module (§6), not among the provided sources: a function to
`{LESS, EQUAL, GREATER}`. -/
inductive ComparisonResult where
  | less
  | equal
  | greater
deriving DecidableEq, Repr

/-- The `less` partition built by the `forEach` switch. -/
def lessPart (compare : T → T → ComparisonResult) (pivot : T) (arr : List T) : List T :=
  arr.filter (fun item => match compare item pivot with
    | .less => true
    | _ => false)

/-- The `greater` partition built by the `forEach` switch. -/
def greaterPart (compare : T → T → ComparisonResult) (pivot : T) (arr : List T) : List T :=
  arr.filter (fun item => match compare item pivot with
    | .greater => true
    | _ => false)

/-- The `equal` partition (the switch's `default` branch). -/
def equalPart (compare : T → T → ComparisonResult) (pivot : T) (arr : List T) : List T :=
  arr.filter (fun item => match compare item pivot with
    | .less => false
    | .greater => false
    | .equal => true)

/-- The `while (_arr.length > 1)` loop of `quickSelect`.  `choose` models
`Math.random()`'s pick of a pivot index (reduced into range exactly as the
source's `floor(random * length)` is always in range); `fuel` bounds the
iteration count, with `none` for exhaustion — a model artifact proved
unreachable for comparators meeting the contract, since both recursive
calls strictly shrink the array. -/
def quickSelectLoop (compare : T → T → ComparisonResult) (choose : List T → Nat) :
    Nat → List T → Nat → Option T
  | 0, _, _ => none
  | fuel + 1, arr, n =>
    if h : 1 < arr.length then
      let pivot := arr.get ⟨choose arr % arr.length, Nat.mod_lt _ (by omega)⟩
      let less := lessPart compare pivot arr
      let equal := equalPart compare pivot arr
      let greater := greaterPart compare pivot arr
      if n ≤ less.length then quickSelectLoop compare choose fuel less n
      else if n ≤ less.length + equal.length then some pivot
      else quickSelectLoop compare choose fuel greater (n - (less.length + equal.length))
    else arr.head?

/-- `quickSelect(arr, n, compare)`: error on an empty array or an
out-of-bounds `n`, otherwise run the partition loop on the 1-based rank
`n + 1`. -/
def quickSelect (compare : T → T → ComparisonResult) (choose : List T → Nat)
    (arr : List T) (n : Int) : Except String T :=
  if arr.length = 0 then .error "Can not select from an empty array"
  else if n < 0 ∨ (arr.length : Int) ≤ n then
    .error "Can not select item from outside of the array bounds"
  else
    match quickSelectLoop compare choose arr.length arr (n.toNat + 1) with
    | some x => .ok x
    | none => .error "loop did not terminate"

end AdsJs.Searches

namespace AdsJs.Singly

variable {T : Type}

/-- Live node count among the nodes reachable from head. -/
def sLiveCount (l : SList T) : Nat :=
  ((sReach l).filter (fun i => !(sIsDeprecated l.nodes i))).length

end AdsJs.Singly

namespace AdsJs.Doubly

variable {T : Type}

/-- Live node count among the nodes reachable from head. -/
def dLiveCount (l : DList T) : Nat :=
  ((dReach l).filter (fun i => !(dIsDeprecated l.nodes i))).length

/-- The successor link stored at an arena index. -/
def dNextOf (l : DList T) (i : Nat) : Option Nat :=
  (l.nodes.get? i).bind DNode.next

/-- The predecessor link stored at an arena index. -/
def dPrevOf (l : DList T) (i : Nat) : Option Nat :=
  (l.nodes.get? i).bind DNode.prev

end AdsJs.Doubly

namespace AdsJs

/-- Modelled from the spec: the binary tree built by `addRoot(1)`,
`addLeft(root, 2)`, `addRight(root, 3)`, `addLeft(pos(2), 4)` (§8); the
concrete link-based tree class realizing those operations is not among the
provided sources. -/
def Trees.c7Tree : Trees.BTree Nat :=
  .node 1 (.node 2 (.node 4 .nil .nil) .nil) (.node 3 .nil .nil)

theorem length_updAt (xs : List α) (i : Nat) (f : α → α) :
    (updAt xs i f).length = xs.length := by
  induction xs generalizing i with
  | nil => rfl
  | cons a rest ih =>
    cases i with
    | zero => rfl
    | succ i => simp [updAt, ih]

theorem get?_updAt_ne (xs : List α) (i j : Nat) (f : α → α) (h : j ≠ i) :
    (updAt xs i f).get? j = xs.get? j := by
  induction xs generalizing i j with
  | nil => rfl
  | cons a rest ih =>
    cases i with
    | zero =>
      cases j with
      | zero => exact absurd rfl h
      | succ j => rfl
    | succ i =>
      cases j with
      | zero => rfl
      | succ j =>
        simp only [updAt, List.get?]
        exact ih i j (fun hji => h (by omega))

theorem get?_updAt_self (xs : List α) (i : Nat) (f : α → α) (a : α)
    (h : xs.get? i = some a) : (updAt xs i f).get? i = some (f a) := by
  induction xs generalizing i with
  | nil => simp [List.get?] at h
  | cons b rest ih =>
    cases i with
    | zero =>
      simp only [List.get?] at h
      cases h
      rfl
    | succ i => exact ih i h

theorem get?_append_left (xs ys : List α) (j : Nat) (h : j < xs.length) :
    (xs ++ ys).get? j = xs.get? j := by
  induction xs generalizing j with
  | nil => simp at h
  | cons a rest ih =>
    cases j with
    | zero => rfl
    | succ j =>
      simp only [List.cons_append, List.get?]
      exact ih j (by simpa using h)

theorem get?_append_len (xs : List α) (a : α) :
    (xs ++ [a]).get? xs.length = some a := by
  induction xs with
  | nil => rfl
  | cons b rest ih => simpa using ih

/-- A list of distinct naturals all below `n` has at most `n` elements. -/
theorem nodup_bounded_length_le (ids : List Nat) (n : Nat)
    (hnd : ids.Nodup) (hb : ∀ i ∈ ids, i < n) : ids.length ≤ n := by
  classical
  have hsub : ids.toFinset ⊆ Finset.range n := by
    intro i hi
    simp only [List.mem_toFinset] at hi
    simpa using hb i hi
  have := Finset.card_le_card hsub
  simp only [List.toFinset_card_of_nodup hnd, Finset.card_range] at this
  exact this

end AdsJs

namespace AdsJs.Singly

variable {T : Type}

theorem sChain_append (nodes : List (SNode T)) (cur stop : Option Nat)
    (A B : List Nat) :
    sChain nodes cur (A ++ B) stop ↔
      ∃ mid, sChain nodes cur A mid ∧ sChain nodes mid B stop := by
  induction A generalizing cur with
  | nil =>
    constructor
    · intro h
      exact ⟨cur, rfl, h⟩
    · rintro ⟨mid, h1, h2⟩
      cases h1
      exact h2
  | cons a A ih =>
    constructor
    · rintro ⟨hc, nd, hget, hrest⟩
      obtain ⟨mid, h1, h2⟩ := (ih nd.next).mp hrest
      exact ⟨mid, ⟨hc, nd, hget, h1⟩, h2⟩
    · rintro ⟨mid, ⟨hc, nd, hget, h1⟩, h2⟩
      exact ⟨hc, nd, hget, (ih nd.next).mpr ⟨mid, h1, h2⟩⟩

/-- Chains only look at the `next` fields of their members. -/
theorem sChain_congr (nodes nodes' : List (SNode T)) (cur stop : Option Nat)
    (ids : List Nat)
    (h : ∀ i ∈ ids, (nodes'.get? i).map SNode.next = (nodes.get? i).map SNode.next)
    (hc : sChain nodes cur ids stop) : sChain nodes' cur ids stop := by
  induction ids generalizing cur with
  | nil => exact hc
  | cons i rest ih =>
    obtain ⟨hcur, nd, hget, hrest⟩ := hc
    have hm := h i (List.mem_cons_self i rest)
    rw [hget] at hm
    cases hg' : nodes'.get? i with
    | none => rw [hg'] at hm; simp at hm
    | some nd' =>
      rw [hg'] at hm
      simp only [Option.map_some', Option.some.injEq] at hm
      refine ⟨hcur, nd', hg', ?_⟩
      rw [hm]
      exact ih nd.next (fun j hj => h j (List.mem_cons_of_mem i hj)) hrest

theorem sChain_mem_exists {nodes : List (SNode T)} {cur stop : Option Nat}
    {ids : List Nat} (hc : sChain nodes cur ids stop) :
    ∀ i ∈ ids, ∃ nd, nodes.get? i = some nd := by
  induction ids generalizing cur with
  | nil => intro i hi; cases hi
  | cons a rest ih =>
    obtain ⟨hcur, nd, hget, hrest⟩ := hc
    intro i hi
    rcases List.mem_cons.mp hi with h | h
    · exact ⟨nd, h ▸ hget⟩
    · exact ih hrest i h

/-- Along a duplicate-free chain every node is live: its successor link is
never itself. -/
theorem sChain_live {nodes : List (SNode T)} {cur : Option Nat}
    {ids : List Nat} (hc : sChain nodes cur ids none) (hnd : ids.Nodup) :
    ∀ i ∈ ids, ∃ nd, nodes.get? i = some nd ∧ nd.next ≠ some i := by
  induction ids generalizing cur with
  | nil => intro i hi; cases hi
  | cons a rest ih =>
    obtain ⟨hcur, nd, hget, hrest⟩ := hc
    intro i hi
    rcases List.mem_cons.mp hi with h | h
    · subst h
      refine ⟨nd, hget, ?_⟩
      cases rest with
      | nil =>
        have hn : nd.next = none := hrest
        rw [hn]
        simp
      | cons b rest' =>
        have hnb : nd.next = some b := hrest.1
        rw [hnb]
        intro hbad
        have hba : b = i := by injection hbad
        subst hba
        exact (List.nodup_cons.mp hnd).1 (List.mem_cons_self b rest')
    · exact ih hrest (List.nodup_cons.mp hnd).2 i h

/-- The reach walk computes exactly the chain when given enough fuel. -/
theorem sReachAux_eq {nodes : List (SNode T)} {cur : Option Nat}
    {ids : List Nat} (hc : sChain nodes cur ids none) :
    ∀ fuel, ids.length ≤ fuel → sReachAux nodes cur fuel = ids := by
  induction ids generalizing cur with
  | nil =>
    intro fuel _
    cases hc
    cases fuel <;> rfl
  | cons a rest ih =>
    intro fuel hf
    obtain ⟨hcur, nd, hget, hrest⟩ := hc
    subst hcur
    cases fuel with
    | zero => simp at hf
    | succ f =>
      simp only [sReachAux, hget]
      rw [ih hrest f (by simpa using hf)]

/-- The iterator yields exactly the elements along the chain. -/
theorem sIterAux_eq {nodes : List (SNode T)} {cur : Option Nat}
    {ids : List Nat} (hc : sChain nodes cur ids none) :
    ∀ fuel, ids.length ≤ fuel → sIterAux nodes cur fuel = elemsAlong nodes ids := by
  induction ids generalizing cur with
  | nil =>
    intro fuel _
    cases hc
    cases fuel <;> rfl
  | cons a rest ih =>
    intro fuel hf
    obtain ⟨hcur, nd, hget, hrest⟩ := hc
    subst hcur
    cases fuel with
    | zero => simp at hf
    | succ f =>
      simp only [sIterAux, hget, elemsAlong, List.filterMap_cons, hget, Option.map_some']
      rw [ih hrest f (by simpa using hf)]
      rfl

theorem sValidate_ok_iff {l : SList T} {p : ListPos} {n : Nat} {nd : SNode T} :
    sValidate l p = .ok (n, nd) ↔
      p.owner = l.listId ∧ n = p.node ∧ l.nodes.get? p.node = some nd ∧
        nd.next ≠ some p.node := by
  constructor
  · intro h
    unfold sValidate at h
    by_cases how : p.owner = l.listId
    · rw [if_pos how] at h
      cases hget : l.nodes.get? p.node with
      | none => rw [hget] at h; cases h
      | some nd' =>
        rw [hget] at h
        dsimp only at h
        by_cases hdep : nd'.next = some p.node
        · rw [if_pos hdep] at h; cases h
        · rw [if_neg hdep] at h
          simp only [Except.ok.injEq, Prod.mk.injEq] at h
          obtain ⟨h1, h2⟩ := h
          exact ⟨how, h1.symm, by rw [h2], h2 ▸ hdep⟩
    · rw [if_neg how] at h; cases h
  · rintro ⟨how, hn, hget, hdep⟩
    subst hn
    unfold sValidate
    rw [if_pos how, hget]
    dsimp only
    rw [if_neg hdep]

theorem sValidate_isOk_elim {l : SList T} {p : ListPos}
    (h : (sValidate l p).isOk = true) :
    ∃ nd, sValidate l p = .ok (p.node, nd) := by
  cases hv : sValidate l p with
  | error e => rw [hv] at h; cases h
  | ok v =>
    obtain ⟨n, nd⟩ := v
    obtain ⟨-, hn, -, -⟩ := sValidate_ok_iff.mp hv
    subst hn
    exact ⟨nd, rfl⟩

theorem nodup_insert_fresh {A B : List Nat} {n m : Nat}
    (h : (A ++ n :: B).Nodup) (hm : m ∉ A ++ n :: B) :
    (A ++ n :: m :: B).Nodup := by
  simp only [List.nodup_append, List.nodup_cons, List.mem_append, List.mem_cons,
    List.disjoint_cons_right] at h hm ⊢
  tauto

theorem elemsAlong_congr {nodes nodes' : List (SNode T)} {ids : List Nat}
    (h : ∀ i ∈ ids, (nodes'.get? i).map SNode.element = (nodes.get? i).map SNode.element) :
    elemsAlong nodes' ids = elemsAlong nodes ids := by
  induction ids with
  | nil => rfl
  | cons a rest ih =>
    simp only [elemsAlong, List.filterMap_cons]
    rw [h a (List.mem_cons_self a rest)]
    have := ih (fun i hi => h i (List.mem_cons_of_mem a hi))
    simp only [elemsAlong] at this
    rw [this]

theorem sEmpty_SWFon : SWFon (sEmpty : SList T) [] := by
  refine ⟨List.nodup_nil, ?_, rfl, rfl, rfl, ?_⟩
  · intro i hi; cases hi
  · intro i nd hget _
    simp [sEmpty, List.get?] at hget

theorem sToList_eq {l : SList T} {ids : List Nat} (h : SWFon l ids) :
    sToList l = elemsAlong l.nodes ids := by
  obtain ⟨hnd, hb, hc, -, -, -⟩ := h
  exact sIterAux_eq hc l.nodes.length (nodup_bounded_length_le ids l.nodes.length hnd hb)

theorem sReach_eq {l : SList T} {ids : List Nat} (h : SWFon l ids) :
    sReach l = ids := by
  obtain ⟨hnd, hb, hc, -, -, -⟩ := h
  exact sReachAux_eq hc l.nodes.length (nodup_bounded_length_le ids l.nodes.length hnd hb)

/-- `addFirst` preserves well-formedness, pushing the fresh node in front. -/
theorem sAddFirst_SWFon {l : SList T} {ids : List Nat} (h : SWFon l ids) (el : T) :
    SWFon (sAddFirst l el).2 (l.nodes.length :: ids) := by
  obtain ⟨hnd, hb, hc, htl, hsz, hlm⟩ := h
  have hfresh : l.nodes.length ∉ ids := fun hmem => absurd (hb _ hmem) (by omega)
  have hget_old : ∀ i ∈ ids, ∀ (x : SNode T),
      ((l.nodes ++ [x]).get? i) = l.nodes.get? i := by
    intro i hi x
    exact get?_append_left _ _ _ (hb i hi)
  cases hhd : l.head with
  | none =>
    -- ids must be empty: the chain starts at none
    have hids : ids = [] := by
      cases ids with
      | nil => rfl
      | cons a rest =>
        rw [hhd] at hc
        exact absurd hc.1 (by simp)
    subst hids
    refine ⟨by simp, ?_, ?_, ?_, ?_, ?_⟩
    · intro i hi
      simp only [List.mem_singleton] at hi
      subst hi
      simp [sAddFirst, hhd]
    · simp only [sAddFirst, hhd]
      exact ⟨rfl, ⟨el, none⟩, get?_append_len _ _, rfl⟩
    · simp [sAddFirst, hhd]
    · simp [sAddFirst, hhd, hsz]
    · intro i nd hget hlive
      simp only [sAddFirst, hhd] at hget
      by_cases hi : i = l.nodes.length
      · simp [hi]
      · rw [show (l.nodes ++ [(⟨el, none⟩ : SNode T)]) = l.nodes ++ [⟨el, none⟩] from rfl] at hget
        have hilen : i < l.nodes.length + 1 := by
          by_contra hge
          rw [List.get?_eq_none.mpr (by simp; omega)] at hget
          cases hget
        have hilt : i < l.nodes.length := by omega
        rw [get?_append_left _ _ _ hilt] at hget
        exact absurd (hlm i nd hget hlive) (by intro hmem; cases hmem)
  | some hh =>
    have hids : ∃ rest, ids = hh :: rest := by
      cases ids with
      | nil => rw [hhd] at hc; exact absurd hc (by simp [sChain])
      | cons a rest =>
        rw [hhd] at hc
        have : some a = some hh := hc.1.symm
        have : a = hh := by injection this
        subst this
        exact ⟨rest, rfl⟩
    obtain ⟨rest, hids⟩ := hids
    refine ⟨List.nodup_cons.mpr ⟨hfresh, hnd⟩, ?_, ?_, ?_, ?_, ?_⟩
    · intro i hi
      simp only [sAddFirst, hhd, List.length_append, List.length_singleton]
      rcases List.mem_cons.mp hi with hi | hi
      · omega
      · have := hb i hi; omega
    · simp only [sAddFirst, hhd]
      refine ⟨rfl, ⟨el, some hh⟩, get?_append_len _ _, ?_⟩
      exact sChain_congr _ _ _ _ _ (fun i hi => by rw [hget_old i hi]) (hhd ▸ hc)
    · simp only [sAddFirst, hhd]
      rw [htl, hids]
      cases rest with
      | nil => rfl
      | cons b rest' => exact (List.getLast?_cons_cons).symm
    · simp [sAddFirst, hhd, hsz]
    · intro i nd hget hlive
      simp only [sAddFirst, hhd] at hget
      by_cases hi : i = l.nodes.length
      · simp [hi]
      · have hilen : i < l.nodes.length + 1 := by
          by_contra hge
          rw [List.get?_eq_none.mpr (by simp; omega)] at hget
          cases hget
        have hilt : i < l.nodes.length := by omega
        rw [get?_append_left _ _ _ hilt] at hget
        exact List.mem_cons_of_mem _ (hlm i nd hget hlive)

/-- From a valid tail reference, the id sequence splits as `A ++ [t]`. -/
theorem split_of_getLast? {ids : List Nat} {t : Nat}
    (h : ids.getLast? = some t) : ∃ A, ids = A ++ [t] :=
  ⟨ids.dropLast, (List.dropLast_append_getLast? t h).symm⟩

theorem getLast?_eq_none_iff {ids : List Nat} : ids.getLast? = none ↔ ids = [] := by
  cases ids with
  | nil => simp
  | cons a rest =>
    rw [List.getLast?_eq_getLast (a :: rest) (by simp)]
    simp

/-- `addLast` preserves well-formedness, appending the fresh node, and
appends the element to the iteration sequence. -/
theorem sAddLast_SWFon {l : SList T} {ids : List Nat} (h : SWFon l ids) (el : T) :
    SWFon (sAddLast l el).2 (ids ++ [l.nodes.length]) ∧
      sToList (sAddLast l el).2 = sToList l ++ [el] := by
  obtain ⟨hnd, hb, hc, htl, hsz, hlm⟩ := h
  have hfresh : l.nodes.length ∉ ids := fun hmem => absurd (hb _ hmem) (by omega)
  have hnd' : (ids ++ [l.nodes.length]).Nodup := by
    simp only [List.nodup_append, List.nodup_cons, List.not_mem_nil, not_false_iff,
      List.nodup_nil, and_true, List.disjoint_singleton, true_and]
    exact ⟨hnd, hfresh⟩
  cases htt : l.tail with
  | none =>
    have hids : ids = [] := getLast?_eq_none_iff.mp (htt ▸ htl.symm)
    subst hids
    have hnodes1 : (sAddLast l el).2.nodes = l.nodes ++ [⟨el, none⟩] := by
      simp [sAddLast, htt]
    have hhead1 : (sAddLast l el).2.head = some l.nodes.length := by
      simp [sAddLast, htt]
    have htail1 : (sAddLast l el).2.tail = some l.nodes.length := by
      simp [sAddLast, htt]
    have hsize1 : (sAddLast l el).2.size = l.size + 1 := by
      simp [sAddLast, htt]
    have hwf : SWFon (sAddLast l el).2 ([] ++ [l.nodes.length]) := by
      refine ⟨by simp, ?_, ?_, ?_, ?_, ?_⟩
      · intro i hi
        simp only [List.nil_append, List.mem_singleton] at hi
        subst hi
        rw [hnodes1]
        simp
      · rw [hnodes1, hhead1]
        exact ⟨rfl, ⟨el, none⟩, get?_append_len _ _, rfl⟩
      · rw [htail1]; rfl
      · rw [hsize1, hsz]; rfl
      · intro i nd hget hlive
        rw [hnodes1] at hget
        by_cases hi : i = l.nodes.length
        · simp [hi]
        · have hilen : i < l.nodes.length + 1 := by
            by_contra hge
            rw [List.get?_eq_none.mpr (by simp; omega)] at hget
            cases hget
          rw [get?_append_left _ _ _ (by omega)] at hget
          exact absurd (hlm i nd hget hlive) (by intro hm; cases hm)
    refine ⟨hwf, ?_⟩
    rw [sToList_eq hwf, sToList_eq ⟨hnd, hb, hc, htl, hsz, hlm⟩]
    simp only [elemsAlong, List.nil_append, List.filterMap_cons, List.filterMap_nil]
    rw [hnodes1, get?_append_len]
    rfl
  | some t =>
    obtain ⟨A, hA⟩ := split_of_getLast? (htt ▸ htl.symm ▸ rfl : ids.getLast? = some t)
    subst hA
    have htA : t ∉ A := by
      have h2 := hnd
      simp only [List.nodup_append, List.disjoint_singleton] at h2
      exact h2.2.2
    have htlen : t < l.nodes.length := hb t (by simp)
    have hnodes1 : (sAddLast l el).2.nodes =
        updAt (l.nodes ++ [⟨el, none⟩]) t (fun nd => { nd with next := some l.nodes.length }) := by
      simp [sAddLast, htt]
    have hhead1 : (sAddLast l el).2.head = l.head := by
      simp [sAddLast, htt]
    have htail1 : (sAddLast l el).2.tail = some l.nodes.length := by
      simp [sAddLast, htt]
    have hsize1 : (sAddLast l el).2.size = l.size + 1 := by
      simp [sAddLast, htt]
    obtain ⟨mid, hcA, hct⟩ := (sChain_append l.nodes l.head none A [t]).mp hc
    obtain ⟨hmid, ndt, hndt, hrest⟩ := hct
    subst hmid
    have hndt_next : ndt.next = none := hrest
    have hget_new : (sAddLast l el).2.nodes.get? l.nodes.length = some ⟨el, none⟩ := by
      rw [hnodes1, get?_updAt_ne _ _ _ _ (by omega), get?_append_len]
    have hget_t : (sAddLast l el).2.nodes.get? t =
        some { ndt with next := some l.nodes.length } := by
      rw [hnodes1]
      exact get?_updAt_self _ _ _ _ (by rw [get?_append_left _ _ _ htlen]; exact hndt)
    have hget_old : ∀ i, i ≠ t → i < l.nodes.length →
        (sAddLast l el).2.nodes.get? i = l.nodes.get? i := by
      intro i hit hilt
      rw [hnodes1, get?_updAt_ne _ _ _ _ hit, get?_append_left _ _ _ hilt]
    have hlen1 : (sAddLast l el).2.nodes.length = l.nodes.length + 1 := by
      rw [hnodes1, length_updAt]
      simp
    have hwf : SWFon (sAddLast l el).2 ((A ++ [t]) ++ [l.nodes.length]) := by
      refine ⟨by simpa using hnd', ?_, ?_, ?_, ?_, ?_⟩
      · intro i hi
        rw [hlen1]
        simp only [List.mem_append, List.mem_singleton] at hi
        rcases hi with hi | hi
        · have := hb i (by simpa using hi); omega
        · omega
      · rw [List.append_assoc, hhead1]
        refine (sChain_append _ _ _ _ _).mpr ⟨some t, ?_, ?_⟩
        · refine sChain_congr _ _ _ _ _ ?_ hcA
          intro i hiA
          rw [hget_old i (fun hit => htA (hit ▸ hiA)) (hb i (by simp [hiA]))]
        · exact ⟨rfl, _, hget_t, ⟨rfl, _, hget_new, rfl⟩⟩
      · rw [htail1, List.getLast?_append_of_ne_nil _ (by simp)]
        rfl
      · rw [hsize1, hsz]
        simp
      · intro i nd hget hlive
        by_cases hi : i = l.nodes.length
        · simp [hi]
        · by_cases hit : i = t
          · subst hit
            simp
          · have hilen : i < l.nodes.length := by
              by_contra hge
              rw [List.get?_eq_none.mpr (by rw [hlen1]; omega)] at hget
              cases hget
            rw [hget_old i hit hilen] at hget
            have hm := hlm i nd hget hlive
            simp only [List.mem_append, List.mem_singleton] at hm ⊢
            tauto
    refine ⟨hwf, ?_⟩
    rw [sToList_eq hwf, sToList_eq ⟨hnd, hb, hc, htl, hsz, hlm⟩]
    have hsplit : elemsAlong (sAddLast l el).2.nodes ((A ++ [t]) ++ [l.nodes.length]) =
        elemsAlong (sAddLast l el).2.nodes (A ++ [t]) ++
          elemsAlong (sAddLast l el).2.nodes [l.nodes.length] := by
      simp only [elemsAlong, List.filterMap_append]
    rw [hsplit]
    have h1 : elemsAlong (sAddLast l el).2.nodes (A ++ [t]) =
        elemsAlong l.nodes (A ++ [t]) := by
      apply elemsAlong_congr
      intro i hi
      by_cases hit : i = t
      · subst hit
        rw [hget_t, hndt]
        rfl
      · rw [hget_old i hit (hb i hi)]
    have h2 : elemsAlong (sAddLast l el).2.nodes [l.nodes.length] = [el] := by
      simp only [elemsAlong, List.filterMap_cons, List.filterMap_nil, hget_new,
        Option.map_some']
    rw [h1, h2]

/-- `addAfter` on a valid position preserves well-formedness, splicing the
fresh node right after the referenced one. -/
theorem sAddAfter_SWFon {l : SList T} {ids : List Nat} {p : ListPos}
    {n : Nat} {nd : SNode T} (el : T)
    (h : SWFon l ids) (hv : sValidate l p = .ok (n, nd)) :
    ∃ A B, ids = A ++ n :: B ∧
      (sAddAfter l p el).1 = .ok ⟨l.nodes.length, l.listId⟩ ∧
      ((sAddAfter l p el).2.nodes.get? l.nodes.length).map SNode.element = some el ∧
      (sAddAfter l p el).2.listId = l.listId ∧
      SWFon (sAddAfter l p el).2 (A ++ n :: l.nodes.length :: B) := by
  obtain ⟨hnd, hb, hc, htl, hsz, hlm⟩ := h
  obtain ⟨hown, hpn, hget, hdep⟩ := sValidate_ok_iff.mp hv
  rw [← hpn] at hget hdep
  have hmem : n ∈ ids := hlm n nd hget hdep
  obtain ⟨A, B, hAB⟩ := List.append_of_mem hmem
  subst hAB
  refine ⟨A, B, rfl, ?_, ?_, ?_, ?_⟩
  · simp [sAddAfter, hv, sCreatePosition]
  · rw [show (sAddAfter l p el).2.nodes =
      updAt (l.nodes ++ [⟨el, nd.next⟩]) n (fun x => { x with next := some l.nodes.length })
      from by simp [sAddAfter, hv]]
    have hnlen2 : n < l.nodes.length := hb n hmem
    rw [get?_updAt_ne _ _ _ _ (by omega), get?_append_len]
    rfl
  · simp [sAddAfter, hv]
  have hnA : n ∉ A ∧ n ∉ B := by
    have h2 := hnd
    simp only [List.nodup_append, List.nodup_cons, List.disjoint_cons_right] at h2
    exact ⟨h2.2.2.1, h2.2.1.1⟩
  have hnlen : n < l.nodes.length := hb n hmem
  have hfresh : l.nodes.length ∉ A ++ n :: B := fun hm => absurd (hb _ hm) (by omega)
  have hnodes1 : (sAddAfter l p el).2.nodes =
      updAt (l.nodes ++ [⟨el, nd.next⟩]) n (fun x => { x with next := some l.nodes.length }) := by
    simp [sAddAfter, hv]
  have hhead1 : (sAddAfter l p el).2.head = l.head := by
    simp [sAddAfter, hv]
  have htail1 : (sAddAfter l p el).2.tail =
      if l.tail = some n then some l.nodes.length else l.tail := by
    simp [sAddAfter, hv]
  have hsize1 : (sAddAfter l p el).2.size = l.size + 1 := by
    simp [sAddAfter, hv]
  have hlen1 : (sAddAfter l p el).2.nodes.length = l.nodes.length + 1 := by
    rw [hnodes1, length_updAt]
    simp
  have hget_new : (sAddAfter l p el).2.nodes.get? l.nodes.length = some ⟨el, nd.next⟩ := by
    rw [hnodes1, get?_updAt_ne _ _ _ _ (by omega), get?_append_len]
  have hget_n : (sAddAfter l p el).2.nodes.get? n =
      some { nd with next := some l.nodes.length } := by
    rw [hnodes1]
    exact get?_updAt_self _ _ _ _ (by rw [get?_append_left _ _ _ hnlen]; exact hget)
  have hget_old : ∀ i, i ≠ n → i < l.nodes.length →
      (sAddAfter l p el).2.nodes.get? i = l.nodes.get? i := by
    intro i hin hilt
    rw [hnodes1, get?_updAt_ne _ _ _ _ hin, get?_append_left _ _ _ hilt]
  obtain ⟨mid, hcA, hcn⟩ := (sChain_append l.nodes l.head none A (n :: B)).mp hc
  obtain ⟨hmid, nd0, hget0, hcB⟩ := hcn
  subst hmid
  have hnd0 : nd0 = nd := by
    rw [hget0] at hget
    injection hget
  subst hnd0
  refine ⟨?_, ?_, ?_, ?_, ?_, ?_⟩
  · exact nodup_insert_fresh hnd hfresh
  · intro i hi
    rw [hlen1]
    simp only [List.mem_append, List.mem_cons] at hi
    rcases hi with hi | hi | hi | hi
    · have := hb i (by simp [hi]); omega
    · subst hi; omega
    · omega
    · have := hb i (by simp [hi]); omega
  · rw [hhead1]
    refine (sChain_append _ _ _ _ _).mpr ⟨some n, ?_, ?_⟩
    · refine sChain_congr _ _ _ _ _ ?_ hcA
      intro i hiA
      rw [hget_old i (fun hin => hnA.1 (hin ▸ hiA)) (hb i (by simp [hiA]))]
    · refine ⟨rfl, _, hget_n, rfl, _, hget_new, ?_⟩
      refine sChain_congr _ _ _ _ _ ?_ hcB
      intro i hiB
      rw [hget_old i (fun hin => hnA.2 (hin ▸ hiB)) (hb i (by simp [hiB]))]
  · rw [htail1]
    cases hB : B with
    | nil =>
      subst hB
      have hlast : (A ++ [n]).getLast? = some n := List.getLast?_append_of_ne_nil _ (by simp)
      rw [htl, hlast, if_pos rfl]
      rw [List.getLast?_append_of_ne_nil _ (by simp)]
      rfl
    | cons b B' =>
      subst hB
      have hlastB : (b :: B').getLast? = some ((b :: B').getLast (by simp)) :=
        List.getLast?_eq_getLast _ (by simp)
      have hmemlast : (b :: B').getLast (by simp) ∈ b :: B' := List.getLast_mem _
      have htail_ne : l.tail ≠ some n := by
        rw [htl, List.getLast?_append_of_ne_nil _ (by simp),
          List.getLast?_cons_cons, hlastB]
        intro hcontra
        have : (b :: B').getLast (by simp) = n := by injection hcontra
        exact hnA.2 (this ▸ hmemlast)
      rw [if_neg htail_ne, htl]
      rw [List.getLast?_append_of_ne_nil _ (by simp),
        List.getLast?_append_of_ne_nil _ (by simp)]
      rw [List.getLast?_cons_cons, List.getLast?_cons_cons, List.getLast?_cons_cons]
  · rw [hsize1, hsz]
    simp only [List.length_append, List.length_cons]
    omega
  · intro i ndi hgeti hlive
    simp only [List.mem_append, List.mem_cons]
    by_cases hi : i = l.nodes.length
    · tauto
    · by_cases hin : i = n
      · tauto
      · have hilen : i < l.nodes.length := by
          by_contra hge
          rw [List.get?_eq_none.mpr (by rw [hlen1]; omega)] at hgeti
          cases hgeti
        rw [hget_old i hin hilen] at hgeti
        have hm := hlm i ndi hgeti hlive
        simp only [List.mem_append, List.mem_cons] at hm
        tauto

/-- `removeFirst` on a nonempty well-formed list: returns the head element,
deprecates exactly the head node and preserves well-formedness on the tail
of the id sequence. -/
theorem sRemoveFirst_SWFon {l : SList T} {ids : List Nat} {h0 : Nat}
    (h : SWFon l ids) (hhd : l.head = some h0) :
    ∃ rest, ids = h0 :: rest ∧
      (∃ nd, l.nodes.get? h0 = some nd ∧ (sRemoveFirst l).1 = .ok nd.element) ∧
      SWFon (sRemoveFirst l).2 rest ∧
      sIsDeprecated (sRemoveFirst l).2.nodes h0 = true ∧
      (∀ i, i ≠ h0 → (sRemoveFirst l).2.nodes.get? i = l.nodes.get? i) := by
  obtain ⟨hnd, hb, hc, htl, hsz, hlm⟩ := h
  obtain ⟨rest, hids⟩ : ∃ rest, ids = h0 :: rest := by
    cases ids with
    | nil => rw [hhd] at hc; exact absurd hc (by simp [sChain])
    | cons a r =>
      rw [hhd] at hc
      have ha : h0 = a := Option.some.inj hc.1
      subst ha
      exact ⟨r, rfl⟩
  subst hids
  rw [hhd] at hc
  obtain ⟨-, hd, hget, hcrest⟩ := hc
  have hh0 : h0 ∉ rest := (List.nodup_cons.mp hnd).1
  have hh0len : h0 < l.nodes.length := hb h0 (by simp)
  have hget2 : l.nodes[h0]? = some hd := by
    rw [← List.get?_eq_getElem?]
    exact hget
  have hnodes1 : (sRemoveFirst l).2.nodes =
      updAt l.nodes h0 (fun x => { x with next := some h0 }) := by
    simp [sRemoveFirst, hhd, hget2]
  have hhead1 : (sRemoveFirst l).2.head = hd.next := by
    simp [sRemoveFirst, hhd, hget2]
  have htail1 : (sRemoveFirst l).2.tail = if hd.next = none then none else l.tail := by
    simp [sRemoveFirst, hhd, hget2]
  have hsize1 : (sRemoveFirst l).2.size = l.size - 1 := by
    simp [sRemoveFirst, hhd, hget2]
  have hres : (sRemoveFirst l).1 = .ok hd.element := by
    simp [sRemoveFirst, hhd, hget2]
  have hget_dead : (sRemoveFirst l).2.nodes.get? h0 = some { hd with next := some h0 } := by
    rw [hnodes1]
    exact get?_updAt_self _ _ _ _ hget
  have hget_old : ∀ i, i ≠ h0 → (sRemoveFirst l).2.nodes.get? i = l.nodes.get? i := by
    intro i hih
    rw [hnodes1, get?_updAt_ne _ _ _ _ hih]
  refine ⟨rest, rfl, ⟨hd, hget, hres⟩, ⟨?_, ?_, ?_, ?_, ?_, ?_⟩, ?_, hget_old⟩
  · exact (List.nodup_cons.mp hnd).2
  · intro i hi
    rw [hnodes1, length_updAt]
    exact hb i (List.mem_cons_of_mem _ hi)
  · rw [hhead1]
    refine sChain_congr _ _ _ _ _ ?_ hcrest
    intro i hi
    rw [hget_old i (fun hih => hh0 (hih ▸ hi))]
  · rw [htail1]
    cases hrest : rest with
    | nil =>
      subst hrest
      have : hd.next = none := hcrest
      rw [if_pos this]
      rfl
    | cons b rest' =>
      subst hrest
      have hnx : hd.next = some b := hcrest.1
      rw [if_neg (by rw [hnx]; simp), htl, List.getLast?_cons_cons]
  · rw [hsize1, hsz]
    simp
  · intro i ndi hgeti hlive
    by_cases hih : i = h0
    · subst hih
      rw [hget_dead] at hgeti
      injection hgeti with hndi
      rw [← hndi] at hlive
      exact absurd rfl hlive
    · rw [hget_old i hih] at hgeti
      have := hlm i ndi hgeti hlive
      simp only [List.mem_cons] at this
      tauto
  · rw [sIsDeprecated, hget_dead]
    simp

/-- `replace` on a valid position: returns the old element, changes only
that node's element and preserves well-formedness on the same ids. -/
theorem sReplace_SWFon {l : SList T} {ids : List Nat} {p : ListPos}
    {n : Nat} {nd : SNode T} (el : T)
    (h : SWFon l ids) (hv : sValidate l p = .ok (n, nd)) :
    (sReplace l p el).1 = .ok nd.element ∧
      SWFon (sReplace l p el).2 ids ∧
      (sReplace l p el).2.head = l.head ∧
      (sReplace l p el).2.tail = l.tail ∧
      (sReplace l p el).2.size = l.size := by
  obtain ⟨hnd0, hb, hc, htl, hsz, hlm⟩ := h
  obtain ⟨hown, hpn, hget, hdep⟩ := sValidate_ok_iff.mp hv
  rw [← hpn] at hget hdep
  have hnodes1 : (sReplace l p el).2.nodes =
      updAt l.nodes n (fun x => { x with element := el }) := by
    simp [sReplace, hv]
  have hhead1 : (sReplace l p el).2.head = l.head := by simp [sReplace, hv]
  have htail1 : (sReplace l p el).2.tail = l.tail := by simp [sReplace, hv]
  have hsize1 : (sReplace l p el).2.size = l.size := by simp [sReplace, hv]
  have hres : (sReplace l p el).1 = .ok nd.element := by simp [sReplace, hv]
  have hnext_pres : ∀ i, ((sReplace l p el).2.nodes.get? i).map SNode.next =
      (l.nodes.get? i).map SNode.next := by
    intro i
    by_cases hin : i = n
    · subst hin
      rw [hnodes1, get?_updAt_self _ _ _ _ hget, hget]
      rfl
    · rw [hnodes1, get?_updAt_ne _ _ _ _ hin]
  refine ⟨hres, ⟨hnd0, ?_, ?_, ?_, ?_, ?_⟩, hhead1, htail1, hsize1⟩
  · intro i hi
    rw [hnodes1, length_updAt]
    exact hb i hi
  · rw [hhead1]
    exact sChain_congr _ _ _ _ _ (fun i _ => hnext_pres i) hc
  · rw [htail1, htl]
  · rw [hsize1, hsz]
  · intro i ndi hgeti hlive
    have := hnext_pres i
    rw [hgeti] at this
    cases hgi : l.nodes.get? i with
    | none => rw [hgi] at this; simp at this
    | some ndo =>
      rw [hgi] at this
      simp only [Option.map_some', Option.some.injEq] at this
      exact hlm i ndo hgi (by rw [← this]; exact hlive)

/-- The deprecation walk self-links exactly the chain nodes and leaves
every other arena entry untouched. -/
theorem sClearWalk_get? {nodes : List (SNode T)} {cur : Option Nat} {ids : List Nat}
    (hc : sChain nodes cur ids none) (hnd : ids.Nodup) :
    ∀ fuel, ids.length ≤ fuel → ∀ j,
      (sClearWalk nodes cur fuel).get? j =
        if j ∈ ids then (nodes.get? j).map (fun nd => { nd with next := some j })
        else nodes.get? j := by
  induction ids generalizing nodes cur with
  | nil =>
    intro fuel _ j
    cases hc
    cases fuel with
    | zero => simp [sClearWalk]
    | succ f => simp [sClearWalk]
  | cons i rest ih =>
    intro fuel hf j
    obtain ⟨hcur, nd, hget, hrest⟩ := hc
    subst hcur
    cases fuel with
    | zero => simp at hf
    | succ f =>
      have hir : i ∉ rest := (List.nodup_cons.mp hnd).1
      have hrest1 : sChain (updAt nodes i (fun x => { x with next := some i })) nd.next rest none := by
        refine sChain_congr _ _ _ _ _ ?_ hrest
        intro k hk
        have hki : k ≠ i := by
          intro hki
          subst hki
          exact hir hk
        rw [get?_updAt_ne _ _ _ _ hki]
      simp only [sClearWalk, hget]
      rw [ih hrest1 (List.nodup_cons.mp hnd).2 f (by simpa using hf) j]
      by_cases hji : j = i
      · subst hji
        rw [if_neg hir, if_pos (List.mem_cons_self j rest)]
        rw [get?_updAt_self _ _ _ _ hget, hget]
        rfl
      · by_cases hjr : j ∈ rest
        · rw [if_pos hjr, if_pos (List.mem_cons_of_mem _ hjr)]
          rw [get?_updAt_ne _ _ _ _ hji]
        · rw [if_neg hjr, if_neg (by simp [hji, hjr])]
          rw [get?_updAt_ne _ _ _ _ hji]

/-- `clear(false)` empties the bookkeeping and deprecates every node that
was reachable from the old head. -/
theorem sClear_false_spec {l : SList T} {ids : List Nat} (h : SWFon l ids) :
    SWFon (sClear l false) [] ∧
      (∀ j ∈ ids, sIsDeprecated (sClear l false).nodes j = true) ∧
      (sClear l false).head = none ∧ (sClear l false).tail = none ∧
      (sClear l false).size = 0 := by
  obtain ⟨hnd, hb, hc, htl, hsz, hlm⟩ := h
  cases hhd : l.head with
  | none =>
    have hids : ids = [] := by
      cases ids with
      | nil => rfl
      | cons a r => rw [hhd] at hc; exact absurd hc.1 (by simp)
    subst hids
    have hnodes1 : (sClear l false).nodes = l.nodes := by
      simp [sClear, hhd]
    refine ⟨⟨List.nodup_nil, ?_, rfl, rfl, rfl, ?_⟩, ?_, rfl, rfl, rfl⟩
    · intro i hi; cases hi
    · intro i nd hget hlive
      rw [hnodes1] at hget
      exact hlm i nd hget hlive
    · intro j hj; cases hj
  | some h0 =>
    have hfuel : ids.length ≤ l.nodes.length :=
      nodup_bounded_length_le ids l.nodes.length hnd hb
    have hnodes1 : (sClear l false).nodes = sClearWalk l.nodes l.head l.nodes.length := by
      simp [sClear, hhd]
    have hw := sClearWalk_get? hc hnd l.nodes.length hfuel
    refine ⟨⟨List.nodup_nil, ?_, rfl, rfl, rfl, ?_⟩, ?_, rfl, rfl, rfl⟩
    · intro i hi; cases hi
    · intro i nd hget hlive
      rw [hnodes1, hw i] at hget
      by_cases hi : i ∈ ids
      · rw [if_pos hi] at hget
        obtain ⟨nd0, hget0⟩ := sChain_mem_exists hc i hi
        rw [hget0] at hget
        simp only [Option.map_some', Option.some.injEq] at hget
        rw [← hget] at hlive
        exact absurd rfl hlive
      · rw [if_neg hi] at hget
        exact absurd (hlm i nd hget hlive) hi
    · intro j hj
      obtain ⟨nd0, hget0⟩ := sChain_mem_exists hc j hj
      rw [sIsDeprecated, hnodes1, hw j, if_pos hj, hget0]
      simp

/-- `clear(true)` only resets the bookkeeping: the arena is untouched. -/
theorem sClear_true_spec (l : SList T) :
    (sClear l true).nodes = l.nodes ∧ (sClear l true).head = none ∧
      (sClear l true).tail = none ∧ (sClear l true).size = 0 :=
  ⟨rfl, rfl, rfl, rfl⟩

theorem sAddAfter_error {l : SList T} {p : ListPos} {el : T} {e : ErrKind}
    (h : (sAddAfter l p el).1 = .error e) : (sAddAfter l p el).2 = l := by
  cases hv : sValidate l p with
  | error e' => simp [sAddAfter, hv]
  | ok v =>
    obtain ⟨n, nd⟩ := v
    rw [show (sAddAfter l p el).1 = .ok (sCreatePosition l l.nodes.length) from by
      simp [sAddAfter, hv]] at h
    cases h

theorem sReplace_error {l : SList T} {p : ListPos} {el : T} {e : ErrKind}
    (h : (sReplace l p el).1 = .error e) : (sReplace l p el).2 = l := by
  cases hv : sValidate l p with
  | error e' => simp [sReplace, hv]
  | ok v =>
    obtain ⟨n, nd⟩ := v
    rw [show (sReplace l p el).1 = .ok nd.element from by simp [sReplace, hv]] at h
    cases h

theorem sRemoveFirst_error {l : SList T} {e : ErrKind}
    (h : (sRemoveFirst l).1 = .error e) : (sRemoveFirst l).2 = l := by
  cases hhd : l.head with
  | none => simp [sRemoveFirst, hhd]
  | some h0 =>
    cases hget : l.nodes.get? h0 with
    | none =>
      have hget2 : l.nodes[h0]? = none := by rw [← List.get?_eq_getElem?]; exact hget
      simp [sRemoveFirst, hhd, hget2]
    | some nd =>
      have hget2 : l.nodes[h0]? = some nd := by rw [← List.get?_eq_getElem?]; exact hget
      rw [show (sRemoveFirst l).1 = .ok nd.element from by simp [sRemoveFirst, hhd, hget2]] at h
      cases h

theorem sGetAfter_state (l : SList T) (p : ListPos) : (sGetAfter l p).2 = l := by
  cases hv : sValidate l p with
  | error e => simp [sGetAfter, hv]
  | ok v => obtain ⟨n, nd⟩ := v; simp [sGetAfter, hv]

/-- Every single call preserves well-formedness. -/
theorem sStep_SWF {l : SList T} (h : SWF l) (op : SOp T) : SWF (sStep l op) := by
  obtain ⟨ids, hids⟩ := h
  cases op with
  | addFirst el => exact ⟨_, sAddFirst_SWFon hids el⟩
  | addLast el => exact ⟨_, (sAddLast_SWFon hids el).1⟩
  | addAfter p el =>
    cases hv : sValidate l p with
    | error e =>
      have : (sAddAfter l p el).2 = l := by simp [sAddAfter, hv]
      rw [sStep, this]
      exact ⟨ids, hids⟩
    | ok v =>
      obtain ⟨n, nd⟩ := v
      obtain ⟨A, B, -, -, -, -, hwf⟩ := sAddAfter_SWFon el hids hv
      exact ⟨_, hwf⟩
  | removeFirst =>
    cases hhd : l.head with
    | none =>
      have : (sRemoveFirst l).2 = l := by simp [sRemoveFirst, hhd]
      rw [sStep, this]
      exact ⟨ids, hids⟩
    | some h0 =>
      obtain ⟨rest, -, -, hwf, -, -⟩ := sRemoveFirst_SWFon hids hhd
      exact ⟨rest, hwf⟩
  | replaceAt p el =>
    cases hv : sValidate l p with
    | error e =>
      have : (sReplace l p el).2 = l := by simp [sReplace, hv]
      rw [sStep, this]
      exact ⟨ids, hids⟩
    | ok v =>
      obtain ⟨n, nd⟩ := v
      exact ⟨ids, (sReplace_SWFon el hids hv).2.1⟩
  | clearAll => exact ⟨[], (sClear_false_spec hids).1⟩

/-- Every reachable list state is well-formed. -/
theorem sRun_SWF (ops : List (SOp T)) : SWF (sRun ops) := by
  have hgen : ∀ (l : SList T), SWF l → SWF (ops.foldl sStep l) := by
    induction ops with
    | nil => intro l h; exact h
    | cons op rest ih =>
      intro l h
      exact ih _ (sStep_SWF h op)
  exact hgen sEmpty ⟨[], sEmpty_SWFon⟩

end AdsJs.Singly

namespace AdsJs.Doubly

variable {T : Type}

theorem endPv_nil (pv : Option Nat) : endPv pv [] = pv := rfl

theorem endPv_cons (pv : Option Nat) (a : Nat) (A : List Nat) :
    endPv pv (a :: A) = endPv (some a) A := by
  cases A with
  | nil => rfl
  | cons b A' =>
    simp only [endPv, List.getLast?_cons_cons]
    rw [List.getLast?_eq_getLast (b :: A') (by simp)]

theorem endPv_none_eq_getLast? (A : List Nat) : endPv none A = A.getLast? := by
  cases hA : A.getLast? with
  | none => simp [endPv, hA]
  | some a => simp [endPv, hA]

theorem dChain_append (nodes : List (DNode T)) (pv cur stop : Option Nat)
    (A B : List Nat) :
    dChain nodes pv cur (A ++ B) stop ↔
      ∃ mid, dChain nodes pv cur A mid ∧ dChain nodes (endPv pv A) mid B stop := by
  induction A generalizing pv cur with
  | nil =>
    constructor
    · intro h
      exact ⟨cur, rfl, h⟩
    · rintro ⟨mid, h1, h2⟩
      cases h1
      exact h2
  | cons a A ih =>
    constructor
    · rintro ⟨hc, nd, hget, hpv, hrest⟩
      obtain ⟨mid, h1, h2⟩ := (ih (some a) nd.next).mp hrest
      exact ⟨mid, ⟨hc, nd, hget, hpv, h1⟩, by rw [endPv_cons]; exact h2⟩
    · rintro ⟨mid, ⟨hc, nd, hget, hpv, h1⟩, h2⟩
      rw [endPv_cons] at h2
      exact ⟨hc, nd, hget, hpv, (ih (some a) nd.next).mpr ⟨mid, h1, h2⟩⟩

/-- Doubly chains only look at the `next` and `prev` fields of members. -/
theorem dChain_congr (nodes nodes' : List (DNode T)) (pv cur stop : Option Nat)
    (ids : List Nat)
    (h : ∀ i ∈ ids, (nodes'.get? i).map (fun nd => (nd.next, nd.prev)) =
      (nodes.get? i).map (fun nd => (nd.next, nd.prev)))
    (hc : dChain nodes pv cur ids stop) : dChain nodes' pv cur ids stop := by
  induction ids generalizing pv cur with
  | nil => exact hc
  | cons i rest ih =>
    obtain ⟨hcur, nd, hget, hpv, hrest⟩ := hc
    have hm := h i (List.mem_cons_self i rest)
    rw [hget] at hm
    cases hg' : nodes'.get? i with
    | none => rw [hg'] at hm; simp at hm
    | some nd' =>
      rw [hg'] at hm
      simp only [Option.map_some', Option.some.injEq, Prod.mk.injEq] at hm
      refine ⟨hcur, nd', hg', by rw [hm.2, hpv], ?_⟩
      rw [hm.1]
      exact ih (some i) nd.next (fun j hj => h j (List.mem_cons_of_mem i hj)) hrest

theorem dChain_head_eq {nodes : List (DNode T)} {pv cur : Option Nat}
    {ids : List Nat} (hc : dChain nodes pv cur ids none) : cur = ids.head? := by
  cases ids with
  | nil => exact hc
  | cons a rest => exact hc.1

theorem dChain_mem_exists {nodes : List (DNode T)} {pv cur stop : Option Nat}
    {ids : List Nat} (hc : dChain nodes pv cur ids stop) :
    ∀ i ∈ ids, ∃ nd, nodes.get? i = some nd := by
  induction ids generalizing pv cur with
  | nil => intro i hi; cases hi
  | cons a rest ih =>
    obtain ⟨hcur, nd, hget, hpv, hrest⟩ := hc
    intro i hi
    rcases List.mem_cons.mp hi with h | h
    · exact ⟨nd, h ▸ hget⟩
    · exact ih hrest i h

/-- Along a duplicate-free doubly chain every node is live. -/
theorem dChain_live {nodes : List (DNode T)} {pv cur : Option Nat}
    {ids : List Nat} (hc : dChain nodes pv cur ids none) (hnd : ids.Nodup) :
    ∀ i ∈ ids, ∃ nd, nodes.get? i = some nd ∧ nd.next ≠ some i := by
  induction ids generalizing pv cur with
  | nil => intro i hi; cases hi
  | cons a rest ih =>
    obtain ⟨hcur, nd, hget, hpv, hrest⟩ := hc
    intro i hi
    rcases List.mem_cons.mp hi with h | h
    · subst h
      refine ⟨nd, hget, ?_⟩
      cases rest with
      | nil =>
        have hn : nd.next = none := hrest
        rw [hn]
        simp
      | cons b rest' =>
        have hnb : nd.next = some b := hrest.1
        rw [hnb]
        intro hbad
        have hba : b = i := by injection hbad
        subst hba
        exact (List.nodup_cons.mp hnd).1 (List.mem_cons_self b rest')
    · exact ih hrest (List.nodup_cons.mp hnd).2 i h

theorem dReachAux_eq {nodes : List (DNode T)} {pv cur : Option Nat}
    {ids : List Nat} (hc : dChain nodes pv cur ids none) :
    ∀ fuel, ids.length ≤ fuel → dReachAux nodes cur fuel = ids := by
  induction ids generalizing pv cur with
  | nil =>
    intro fuel _
    cases hc
    cases fuel <;> rfl
  | cons a rest ih =>
    intro fuel hf
    obtain ⟨hcur, nd, hget, hpv, hrest⟩ := hc
    subst hcur
    cases fuel with
    | zero => simp at hf
    | succ f =>
      simp only [dReachAux, hget]
      rw [ih hrest f (by simpa using hf)]

theorem dIterAux_eq {nodes : List (DNode T)} {pv cur : Option Nat}
    {ids : List Nat} (hc : dChain nodes pv cur ids none) :
    ∀ fuel, ids.length ≤ fuel → dIterAux nodes cur fuel = dElemsAlong nodes ids := by
  induction ids generalizing pv cur with
  | nil =>
    intro fuel _
    cases hc
    cases fuel <;> rfl
  | cons a rest ih =>
    intro fuel hf
    obtain ⟨hcur, nd, hget, hpv, hrest⟩ := hc
    subst hcur
    cases fuel with
    | zero => simp at hf
    | succ f =>
      simp only [dIterAux, hget, dElemsAlong, List.filterMap_cons, Option.map_some']
      rw [ih hrest f (by simpa using hf)]
      rfl

theorem dElemsAlong_congr {nodes nodes' : List (DNode T)} {ids : List Nat}
    (h : ∀ i ∈ ids, (nodes'.get? i).map DNode.element = (nodes.get? i).map DNode.element) :
    dElemsAlong nodes' ids = dElemsAlong nodes ids := by
  induction ids with
  | nil => rfl
  | cons a rest ih =>
    simp only [dElemsAlong, List.filterMap_cons]
    rw [h a (List.mem_cons_self a rest)]
    have := ih (fun i hi => h i (List.mem_cons_of_mem a hi))
    simp only [dElemsAlong] at this
    rw [this]

theorem dValidate_ok_iff {l : DList T} {p : ListPos} {n : Nat} {nd : DNode T} :
    dValidate l p = .ok (n, nd) ↔
      p.owner = l.listId ∧ n = p.node ∧ l.nodes.get? p.node = some nd ∧
        nd.next ≠ some p.node := by
  constructor
  · intro h
    unfold dValidate at h
    by_cases how : p.owner = l.listId
    · rw [if_pos how] at h
      cases hget : l.nodes.get? p.node with
      | none => rw [hget] at h; cases h
      | some nd' =>
        rw [hget] at h
        dsimp only at h
        by_cases hdep : nd'.next = some p.node
        · rw [if_pos hdep] at h; cases h
        · rw [if_neg hdep] at h
          simp only [Except.ok.injEq, Prod.mk.injEq] at h
          obtain ⟨h1, h2⟩ := h
          exact ⟨how, h1.symm, by rw [h2], h2 ▸ hdep⟩
    · rw [if_neg how] at h; cases h
  · rintro ⟨how, hn, hget, hdep⟩
    subst hn
    unfold dValidate
    rw [if_pos how, hget]
    dsimp only
    rw [if_neg hdep]

theorem dValidate_isOk_elim {l : DList T} {p : ListPos}
    (h : (dValidate l p).isOk = true) :
    ∃ nd, dValidate l p = .ok (p.node, nd) := by
  cases hv : dValidate l p with
  | error e => rw [hv] at h; cases h
  | ok v =>
    obtain ⟨n, nd⟩ := v
    obtain ⟨-, hn, -, -⟩ := dValidate_ok_iff.mp hv
    subst hn
    exact ⟨nd, rfl⟩

theorem dEmpty_DWFon : DWFon (dEmpty : DList T) [] := by
  refine ⟨List.nodup_nil, ?_, rfl, rfl, rfl, ?_⟩
  · intro i hi; cases hi
  · intro i nd hget _
    simp [dEmpty, List.get?] at hget

theorem dToList_eq {l : DList T} {ids : List Nat} (h : DWFon l ids) :
    dToList l = dElemsAlong l.nodes ids := by
  obtain ⟨hnd, hb, hc, -, -, -⟩ := h
  exact dIterAux_eq hc l.nodes.length (nodup_bounded_length_le ids l.nodes.length hnd hb)

theorem dReach_eq {l : DList T} {ids : List Nat} (h : DWFon l ids) :
    dReach l = ids := by
  obtain ⟨hnd, hb, hc, -, -, -⟩ := h
  exact dReachAux_eq hc l.nodes.length (nodup_bounded_length_le ids l.nodes.length hnd hb)

end AdsJs.Doubly

namespace AdsJs

theorem nodup_insert_fresh2 {A B : List Nat} {m : Nat}
    (h : (A ++ B).Nodup) (hm : m ∉ A ++ B) : (A ++ m :: B).Nodup := by
  simp only [List.nodup_append, List.nodup_cons, List.mem_append,
    List.disjoint_cons_right] at h hm ⊢
  tauto

end AdsJs

namespace AdsJs.Doubly

variable {T : Type}

/-- Re-chaining a segment whose first node had its `prev` pointer redirected
(the other members keeping their links). -/
theorem dChain_first_prev {nodes nodes' : List (DNode T)} {B : List Nat}
    {pv pv' : Option Nat}
    (hc : dChain nodes pv B.head? B none)
    (hfirst : ∀ b nd, B.head? = some b → nodes.get? b = some nd →
        nodes'.get? b = some { nd with prev := pv' })
    (hrest : ∀ i ∈ B.tail, (nodes'.get? i).map (fun nd => (nd.next, nd.prev)) =
        (nodes.get? i).map (fun nd => (nd.next, nd.prev))) :
    dChain nodes' pv' B.head? B none := by
  cases B with
  | nil => rfl
  | cons b B' =>
    obtain ⟨-, nd, hget, -, hrest0⟩ := hc
    refine ⟨rfl, { nd with prev := pv' }, hfirst b nd rfl hget, rfl, ?_⟩
    exact dChain_congr _ _ _ _ _ _ (by simpa using hrest) hrest0

/-- `insertBetween`, called as every public insertion calls it (predecessor
= last id of the left segment, successor = first id of the right segment),
returns the fresh id and preserves well-formedness with the fresh id
spliced between the segments. -/
theorem insertBetween_DWFon {l : DList T} {A B : List Nat} (el : T)
    (h : DWFon l (A ++ B)) :
    (insertBetween l el A.getLast? B.head?).1 = l.nodes.length ∧
      (insertBetween l el A.getLast? B.head?).2.listId = l.listId ∧
      DWFon (insertBetween l el A.getLast? B.head?).2 (A ++ l.nodes.length :: B) ∧
      (∀ i, i ≠ l.nodes.length →
        ((insertBetween l el A.getLast? B.head?).2.nodes.get? i).map DNode.element =
          (l.nodes.get? i).map DNode.element) ∧
      (insertBetween l el A.getLast? B.head?).2.nodes.get? l.nodes.length =
        some ⟨el, B.head?, A.getLast?⟩ := by
  obtain ⟨hnd, hb, hc, htl, hsz, hlm⟩ := h
  have hdisj : A.Disjoint B := ((List.nodup_append).mp hnd).2.2
  have hfresh : l.nodes.length ∉ A ++ B := fun hm => absurd (hb _ hm) (by omega)
  have hnd' : (A ++ l.nodes.length :: B).Nodup := nodup_insert_fresh2 hnd hfresh
  obtain ⟨mid, hcA, hcB⟩ := (dChain_append _ _ _ _ _ _).mp hc
  have hmid : mid = B.head? := dChain_head_eq hcB
  subst hmid
  rw [endPv_none_eq_getLast?] at hcB
  -- facts about the ends of the segments
  have hpmem : ∀ p, A.getLast? = some p → p ∈ A := by
    intro p hp
    obtain ⟨A0, hA0⟩ := Singly.split_of_getLast? hp
    rw [hA0]; simp
  have hsmem : ∀ s, B.head? = some s → s ∈ B := by
    intro s hs
    cases B with
    | nil => cases hs
    | cons b B' =>
      have : b = s := by injection hs
      subst this
      simp
  have hps : ∀ p s, A.getLast? = some p → B.head? = some s → p ≠ s := by
    intro p s hp hs hcon
    exact hdisj (hpmem p hp) (hcon ▸ hsmem s hs)
  have hplen : ∀ p, A.getLast? = some p → p < l.nodes.length := by
    intro p hp
    exact hb p (by simp [hpmem p hp])
  have hslen : ∀ s, B.head? = some s → s < l.nodes.length := by
    intro s hs
    exact hb s (by simp [hsmem s hs])
  -- arena characterization
  have F1 : (insertBetween l el A.getLast? B.head?).2.nodes.get? l.nodes.length =
      some ⟨el, B.head?, A.getLast?⟩ := by
    cases hA : A.getLast? with
    | none =>
      cases hB : B.head? with
      | none => simp [insertBetween, get?_append_len]
      | some s =>
        simp only [insertBetween]
        rw [get?_updAt_ne _ _ _ _ (by have := hslen s hB; omega), get?_append_len]
    | some p =>
      cases hB : B.head? with
      | none =>
        simp only [insertBetween]
        rw [get?_updAt_ne _ _ _ _ (by have := hplen p hA; omega), get?_append_len]
      | some s =>
        simp only [insertBetween]
        rw [get?_updAt_ne _ _ _ _ (by have := hslen s hB; omega),
          get?_updAt_ne _ _ _ _ (by have := hplen p hA; omega), get?_append_len]
  have F5 : (insertBetween l el A.getLast? B.head?).2.nodes.length = l.nodes.length + 1 := by
    cases hA : A.getLast? with
    | none =>
      cases hB : B.head? with
      | none => simp [insertBetween]
      | some s => simp [insertBetween, length_updAt]
    | some p =>
      cases hB : B.head? with
      | none => simp [insertBetween, length_updAt]
      | some s => simp [insertBetween, length_updAt]
  have F2 : ∀ j, j ≠ l.nodes.length → A.getLast? ≠ some j → B.head? ≠ some j →
      (insertBetween l el A.getLast? B.head?).2.nodes.get? j = l.nodes.get? j := by
    intro j hj hpj hsj
    have happ : ∀ (x : DNode T), (l.nodes ++ [x]).get? j = l.nodes.get? j := by
      intro x
      by_cases hlt : j < l.nodes.length
      · exact get?_append_left _ _ _ hlt
      · rw [List.get?_eq_none.mpr (by simp; omega), List.get?_eq_none.mpr (by omega)]
    cases hA : A.getLast? with
    | none =>
      cases hB : B.head? with
      | none => simp only [insertBetween]; exact happ _
      | some s =>
        simp only [insertBetween]
        rw [get?_updAt_ne _ _ _ _ (fun hjs => hsj (by rw [hB, hjs]))]
        exact happ _
    | some p =>
      cases hB : B.head? with
      | none =>
        simp only [insertBetween]
        rw [get?_updAt_ne _ _ _ _ (fun hjp => hpj (by rw [hA, hjp]))]
        exact happ _
      | some s =>
        simp only [insertBetween]
        rw [get?_updAt_ne _ _ _ _ (fun hjs => hsj (by rw [hB, hjs])),
          get?_updAt_ne _ _ _ _ (fun hjp => hpj (by rw [hA, hjp]))]
        exact happ _
  have F3 : ∀ p ndp, A.getLast? = some p → l.nodes.get? p = some ndp →
      (insertBetween l el A.getLast? B.head?).2.nodes.get? p =
        some { ndp with next := some l.nodes.length } := by
    intro p ndp hA hgetp
    cases hB : B.head? with
    | none =>
      simp only [insertBetween, hA, hB]
      exact get?_updAt_self _ _ _ _ (by rw [get?_append_left _ _ _ (hplen p hA)]; exact hgetp)
    | some s =>
      simp only [insertBetween, hA, hB]
      rw [get?_updAt_ne _ _ _ _ (hps p s hA hB)]
      exact get?_updAt_self _ _ _ _ (by rw [get?_append_left _ _ _ (hplen p hA)]; exact hgetp)
  have F4 : ∀ s nds, B.head? = some s → l.nodes.get? s = some nds →
      (insertBetween l el A.getLast? B.head?).2.nodes.get? s =
        some { nds with prev := some l.nodes.length } := by
    intro s nds hB hgets
    cases hA : A.getLast? with
    | none =>
      simp only [insertBetween, hA, hB]
      exact get?_updAt_self _ _ _ _ (by rw [get?_append_left _ _ _ (hslen s hB)]; exact hgets)
    | some p =>
      simp only [insertBetween, hA, hB]
      refine get?_updAt_self _ _ _ _ ?_
      rw [get?_updAt_ne _ _ _ _ (hps p s hA hB).symm, get?_append_left _ _ _ (hslen s hB)]
      exact hgets
  have F6h : (insertBetween l el A.getLast? B.head?).2.head =
      match A.getLast? with
      | some _ => l.head
      | none => some l.nodes.length := by
    cases hA : A.getLast? with
    | none => cases hB : B.head? <;> simp [insertBetween, hA]
    | some p => cases hB : B.head? <;> simp [insertBetween, hA]
  have F6t : (insertBetween l el A.getLast? B.head?).2.tail =
      match B.head? with
      | some _ => l.tail
      | none => some l.nodes.length := by
    cases hA : A.getLast? with
    | none => cases hB : B.head? <;> simp [insertBetween, hB]
    | some p => cases hB : B.head? <;> simp [insertBetween, hB]
  have F6s : (insertBetween l el A.getLast? B.head?).2.size = l.size + 1 := by
    cases hA : A.getLast? <;> cases hB : B.head? <;> simp [insertBetween]
  have F6id : (insertBetween l el A.getLast? B.head?).2.listId = l.listId := by
    cases hA : A.getLast? <;> cases hB : B.head? <;> simp [insertBetween]
  refine ⟨?_, F6id, ⟨hnd', ?_, ?_, ?_, ?_, ?_⟩, ?_, F1⟩
  · cases hA : A.getLast? <;> cases hB : B.head? <;> simp [insertBetween]
  · intro i hi
    rw [F5]
    simp only [List.mem_append, List.mem_cons] at hi
    rcases hi with hi | hi | hi
    · have := hb i (by simp [hi]); omega
    · omega
    · have := hb i (by simp [hi]); omega
  · -- the chain
    refine (dChain_append _ _ _ _ _ _).mpr ⟨some l.nodes.length, ?_, ?_⟩
    · -- left segment ending at the fresh node
      cases hA : A.getLast? with
      | none =>
        have hAnil : A = [] := Singly.getLast?_eq_none_iff.mp hA
        subst hAnil
        exact F6h
      | some p =>
        obtain ⟨A0, hA0⟩ := Singly.split_of_getLast? hA
        subst hA0
        obtain ⟨mid2, hcA0, hcp⟩ := (dChain_append _ _ _ _ _ _).mp hcA
        obtain ⟨hmid2, ndp, hgetp, hprevp, hnextp⟩ := hcp
        have hpA0 : p ∉ A0 := by
          have hAnodup : (A0 ++ [p]).Nodup := ((List.nodup_append).mp hnd).1
          simp only [List.nodup_append, List.disjoint_singleton] at hAnodup
          tauto
        rw [hA] at F2 F3 F6h
        refine (dChain_append _ _ _ _ _ _).mpr ⟨some p, ?_, ?_⟩
        · rw [F6h]
          refine dChain_congr _ _ _ _ _ _ ?_ (hmid2 ▸ hcA0)
          intro j hj
          have hjp : some p ≠ some j := by
            intro hcon
            have hpj : p = j := by injection hcon
            exact hpA0 (hpj ▸ hj)
          have hjs : B.head? ≠ some j := by
            intro hcon
            exact hdisj (by simp [hj]) (hsmem j hcon)
          have hjn : j ≠ l.nodes.length := by
            have := hb j (by simp [hj])
            omega
          rw [F2 j hjn hjp hjs]
        · exact ⟨rfl, { ndp with next := some l.nodes.length },
            F3 p ndp rfl hgetp, hprevp, rfl⟩
    · -- right segment: fresh node then B
      rw [endPv_none_eq_getLast?]
      refine ⟨rfl, ⟨el, B.head?, A.getLast?⟩, F1, rfl, ?_⟩
      show dChain _ (some l.nodes.length) (B.head?) B none
      refine dChain_first_prev hcB ?_ ?_
      · intro b nd hB hgetb
        exact F4 b nd hB hgetb
      · intro i hiB
        have hiB' : i ∈ B := List.mem_of_mem_tail hiB
        have hjs : B.head? ≠ some i := by
          cases hBc : B with
          | nil => subst hBc; cases hiB
          | cons b B' =>
            subst hBc
            intro hcon
            have hbi : b = i := by injection hcon
            subst hbi
            exact (List.nodup_cons.mp (((List.nodup_append).mp hnd).2.1)).1 (by simpa using hiB)
        have hjp : A.getLast? ≠ some i := by
          intro hcon
          exact hdisj (hpmem i hcon) hiB'
        have hjn : i ≠ l.nodes.length := by
          have := hb i (by simp [hiB']); omega
        rw [F2 i hjn hjp hjs]
  · -- tail
    rw [F6t]
    cases hB : B.head? with
    | none =>
      have hBnil : B = [] := by
        cases B with
        | nil => rfl
        | cons b B' => cases hB
      subst hBnil
      rw [List.getLast?_append_of_ne_nil _ (by simp)]
      rfl
    | some s =>
      cases hBc : B with
      | nil => subst hBc; cases hB
      | cons b B' =>
        subst hBc
        rw [htl]
        rw [List.getLast?_append_of_ne_nil _ (by simp),
          List.getLast?_append_of_ne_nil _ (by simp)]
        rw [List.getLast?_cons_cons]
  · rw [F6s, hsz]
    simp only [List.length_append, List.length_cons]
    omega
  · -- live_mem
    intro i ndi hgeti hlive
    simp only [List.mem_append, List.mem_cons]
    by_cases hin : i = l.nodes.length
    · tauto
    · cases hpi : A.getLast? with
      | some p =>
        by_cases hip : i = p
        · subst hip
          exact Or.inl (hpmem i hpi)
        · cases hsi : B.head? with
          | some s =>
            by_cases his : i = s
            · subst his
              exact Or.inr (Or.inr (hsmem i hsi))
            · rw [F2 i hin (by rw [hpi]; intro hcon; exact hip (by injection hcon; omega))
                (by rw [hsi]; intro hcon; exact his (by injection hcon; omega))] at hgeti
              have := hlm i ndi hgeti hlive
              simp only [List.mem_append] at this
              tauto
          | none =>
            rw [F2 i hin (by rw [hpi]; intro hcon; exact hip (by injection hcon; omega))
              (by rw [hsi]; simp)] at hgeti
            have := hlm i ndi hgeti hlive
            simp only [List.mem_append] at this
            tauto
      | none =>
        cases hsi : B.head? with
        | some s =>
          by_cases his : i = s
          · subst his
            exact Or.inr (Or.inr (hsmem i hsi))
          · rw [F2 i hin (by rw [hpi]; simp)
              (by rw [hsi]; intro hcon; exact his (by injection hcon; omega))] at hgeti
            have := hlm i ndi hgeti hlive
            simp only [List.mem_append] at this
            tauto
        | none =>
          rw [F2 i hin (by rw [hpi]; simp) (by rw [hsi]; simp)] at hgeti
          have := hlm i ndi hgeti hlive
          simp only [List.mem_append] at this
          tauto
  · -- element preservation
    intro i hi
    cases hpi : A.getLast? with
    | some p =>
      rw [hpi] at F2 F3 F4
      by_cases hip : i = p
      · subst hip
        obtain ⟨ndp, hgetp⟩ := dChain_mem_exists hc i (by simp [hpmem i hpi])
        rw [F3 i ndp rfl hgetp, hgetp]
        rfl
      · cases hsi : B.head? with
        | some s =>
          rw [hsi] at F2 F4
          by_cases his : i = s
          · subst his
            obtain ⟨nds, hgets⟩ := dChain_mem_exists hc i (by simp [hsmem i hsi])
            rw [F4 i nds rfl hgets, hgets]
            rfl
          · rw [F2 i hi (by intro hcon; injection hcon with h2; exact hip h2.symm)
              (by intro hcon; injection hcon with h2; exact his h2.symm)]
        | none =>
          rw [hsi] at F2
          rw [F2 i hi (by intro hcon; injection hcon with h2; exact hip h2.symm) (by simp)]
    | none =>
      rw [hpi] at F2 F4
      cases hsi : B.head? with
      | some s =>
        rw [hsi] at F2 F4
        by_cases his : i = s
        · subst his
          obtain ⟨nds, hgets⟩ := dChain_mem_exists hc i (by simp [hsmem i hsi])
          rw [F4 i nds rfl hgets, hgets]
          rfl
        · rw [F2 i hi (by simp)
            (by intro hcon; injection hcon with h2; exact his h2.symm)]
      | none =>
        rw [hsi] at F2
        rw [F2 i hi (by simp) (by simp)]

theorem dValidate_isOk_of_pres {l l' : DList T} (p : ListPos)
    (hid : l'.listId = l.listId)
    (hsome : (l'.nodes.get? p.node).isSome = (l.nodes.get? p.node).isSome)
    (hdep : dIsDeprecated l'.nodes p.node = dIsDeprecated l.nodes p.node) :
    (dValidate l' p).isOk = (dValidate l p).isOk := by
  unfold dValidate
  rw [hid]
  by_cases how : p.owner = l.listId
  · rw [if_pos how, if_pos how]
    unfold dIsDeprecated at hdep
    cases hg' : l'.nodes.get? p.node with
    | none =>
      rw [hg'] at hsome
      cases hg : l.nodes.get? p.node with
      | none => rfl
      | some nd => rw [hg] at hsome; cases hsome
    | some nd' =>
      rw [hg'] at hsome hdep
      cases hg : l.nodes.get? p.node with
      | none => rw [hg] at hsome; cases hsome
      | some nd =>
        rw [hg] at hdep
        dsimp only at hdep
        dsimp only
        by_cases hd' : nd'.next = some p.node
        · rw [if_pos hd']
          have hnx : nd.next = some p.node := by
            have h2 : (nd.next == some p.node) = true := by
              rw [← hdep, hd']
              simp
            exact eq_of_beq h2
          rw [if_pos hnx]
        · rw [if_neg hd']
          have hnx : ¬ nd.next = some p.node := by
            intro hcon
            have h2 : (nd'.next == some p.node) = true := by
              rw [hdep, hcon]
              simp
            exact hd' (eq_of_beq h2)
          rw [if_neg hnx]
          rfl
  · rw [if_neg how, if_neg how]

/-- `deleteNode` on a chain member: returns its element, deprecates exactly
that node, preserves well-formedness on the remaining ids and leaves every
other node's existence and deprecation status unchanged. -/
theorem deleteNode_DWFon {l : DList T} {A B : List Nat} {n : Nat} {nd : DNode T}
    (h : DWFon l (A ++ n :: B)) (hget : l.nodes.get? n = some nd) :
    (deleteNode l n).1 = some nd.element ∧
      (deleteNode l n).2.listId = l.listId ∧
      DWFon (deleteNode l n).2 (A ++ B) ∧
      dIsDeprecated (deleteNode l n).2.nodes n = true ∧
      (∀ i, i ≠ n → dIsDeprecated (deleteNode l n).2.nodes i = dIsDeprecated l.nodes i) ∧
      (∀ i, i ≠ n → ((deleteNode l n).2.nodes.get? i).isSome = (l.nodes.get? i).isSome) := by
  obtain ⟨hnd, hb, hc, htl, hsz, hlm⟩ := h
  have hnmem : n ∈ A ++ n :: B := by simp
  have hnlen : n < l.nodes.length := hb n hnmem
  have hget2 : l.nodes[n]? = some nd := by
    rw [← List.get?_eq_getElem?]
    exact hget
  have hnA : n ∉ A ∧ n ∉ B := by
    have h2 := hnd
    simp only [List.nodup_append, List.nodup_cons, List.disjoint_cons_right] at h2
    exact ⟨h2.2.2.1, h2.2.1.1⟩
  have hdisj : A.Disjoint B := by
    have h2 := hnd
    simp only [List.nodup_append, List.disjoint_cons_right] at h2
    exact h2.2.2.2
  obtain ⟨mid, hcA, hcnB⟩ := (dChain_append _ _ _ _ _ _).mp hc
  have hmid : mid = some n := dChain_head_eq hcnB
  subst hmid
  obtain ⟨-, nd0, hget0, hprev0, hcB⟩ := hcnB
  have hnd0 : nd0 = nd := by rw [hget0] at hget; injection hget
  rw [hnd0] at hprev0 hcB
  rw [endPv_none_eq_getLast?] at hprev0
  have hnext0 : nd.next = B.head? := dChain_head_eq hcB
  have hpmem : ∀ p, A.getLast? = some p → p ∈ A := by
    intro p hp
    obtain ⟨A0, hA0⟩ := Singly.split_of_getLast? hp
    rw [hA0]; simp
  have hsmem : ∀ s, B.head? = some s → s ∈ B := by
    intro s hs
    cases B with
    | nil => cases hs
    | cons b B' =>
      have : b = s := by injection hs
      subst this
      simp
  have hpn : ∀ p, A.getLast? = some p → p ≠ n := fun p hp hcon => hnA.1 (hcon ▸ hpmem p hp)
  have hsn : ∀ s, B.head? = some s → s ≠ n := fun s hs hcon => hnA.2 (hcon ▸ hsmem s hs)
  have hps : ∀ p s, A.getLast? = some p → B.head? = some s → p ≠ s :=
    fun p s hp hs hcon => hdisj (hpmem p hp) (hcon ▸ hsmem s hs)
  have hplen : ∀ p, A.getLast? = some p → p < l.nodes.length :=
    fun p hp => hb p (by simp [hpmem p hp])
  have hslen : ∀ s, B.head? = some s → s < l.nodes.length :=
    fun s hs => hb s (by simp [hsmem s hs])
  -- projections
  have GH : (deleteNode l n).2.head =
      match nd.prev with
      | some _ => l.head
      | none => nd.next := by
    cases hp : nd.prev <;> cases hq : nd.next <;> simp [deleteNode, hget, hget2, hp, hq]
  have GT : (deleteNode l n).2.tail =
      match nd.next with
      | some _ => l.tail
      | none => nd.prev := by
    cases hp : nd.prev <;> cases hq : nd.next <;> simp [deleteNode, hget, hget2, hp, hq]
  have GS : (deleteNode l n).2.size = l.size - 1 := by
    cases hp : nd.prev <;> cases hq : nd.next <;> simp [deleteNode, hget, hget2, hp, hq]
  have GI : (deleteNode l n).2.listId = l.listId := by
    cases hp : nd.prev <;> cases hq : nd.next <;> simp [deleteNode, hget, hget2, hp, hq]
  have GR : (deleteNode l n).1 = some nd.element := by
    cases hp : nd.prev <;> cases hq : nd.next <;> simp [deleteNode, hget, hget2, hp, hq]
  have G5 : (deleteNode l n).2.nodes.length = l.nodes.length := by
    cases hp : nd.prev <;> cases hq : nd.next <;>
      simp [deleteNode, hget, hget2, hp, hq, length_updAt]
  have G1 : (deleteNode l n).2.nodes.get? n =
      some { nd with next := some n, prev := some n } := by
    cases hp : A.getLast? with
    | none =>
      cases hq : B.head? with
      | none =>
        simp only [deleteNode, hget, hget2, hprev0, hnext0, hp, hq]
        exact get?_updAt_self _ _ _ _ hget
      | some s =>
        simp only [deleteNode, hget, hget2, hprev0, hnext0, hp, hq]
        refine get?_updAt_self _ _ _ _ ?_
        rw [get?_updAt_ne _ _ _ _ (fun hcon => (hsn s hq) hcon.symm)]
        exact hget
    | some p =>
      cases hq : B.head? with
      | none =>
        simp only [deleteNode, hget, hget2, hprev0, hnext0, hp, hq]
        refine get?_updAt_self _ _ _ _ ?_
        rw [get?_updAt_ne _ _ _ _ (fun hcon => (hpn p hp) hcon.symm)]
        exact hget
      | some s =>
        simp only [deleteNode, hget, hget2, hprev0, hnext0, hp, hq]
        refine get?_updAt_self _ _ _ _ ?_
        rw [get?_updAt_ne _ _ _ _ (fun hcon => (hsn s hq) hcon.symm),
          get?_updAt_ne _ _ _ _ (fun hcon => (hpn p hp) hcon.symm)]
        exact hget
  have G2 : ∀ p ndp, A.getLast? = some p → l.nodes.get? p = some ndp →
      (deleteNode l n).2.nodes.get? p = some { ndp with next := nd.next } := by
    intro p ndp hp hgetp
    cases hq : B.head? with
    | none =>
      simp only [deleteNode, hget, hget2, hprev0, hnext0, hp, hq]
      rw [get?_updAt_ne _ _ _ _ (hpn p hp)]
      exact get?_updAt_self _ _ _ _ hgetp
    | some s =>
      simp only [deleteNode, hget, hget2, hprev0, hnext0, hp, hq]
      rw [get?_updAt_ne _ _ _ _ (hpn p hp),
        get?_updAt_ne _ _ _ _ (hps p s hp hq)]
      exact get?_updAt_self _ _ _ _ hgetp
  have G3 : ∀ s nds, B.head? = some s → l.nodes.get? s = some nds →
      (deleteNode l n).2.nodes.get? s = some { nds with prev := nd.prev } := by
    intro s nds hq hgets
    cases hp : A.getLast? with
    | none =>
      simp only [deleteNode, hget, hget2, hprev0, hnext0, hp, hq]
      rw [get?_updAt_ne _ _ _ _ (hsn s hq)]
      exact get?_updAt_self _ _ _ _ hgets
    | some p =>
      simp only [deleteNode, hget, hget2, hprev0, hnext0, hp, hq]
      rw [get?_updAt_ne _ _ _ _ (hsn s hq)]
      refine get?_updAt_self _ _ _ _ ?_
      rw [get?_updAt_ne _ _ _ _ (fun hcon => (hps p s hp hq) hcon.symm)]
      exact hgets
  have G4 : ∀ j, j ≠ n → A.getLast? ≠ some j → B.head? ≠ some j →
      (deleteNode l n).2.nodes.get? j = l.nodes.get? j := by
    intro j hjn hjp hjq
    cases hp : A.getLast? with
    | none =>
      cases hq : B.head? with
      | none =>
        simp only [deleteNode, hget, hget2, hprev0, hnext0, hp, hq]
        rw [get?_updAt_ne _ _ _ _ hjn]
      | some s =>
        simp only [deleteNode, hget, hget2, hprev0, hnext0, hp, hq]
        rw [get?_updAt_ne _ _ _ _ hjn,
          get?_updAt_ne _ _ _ _ (fun hcon => hjq (by rw [hq, hcon]))]
    | some p =>
      cases hq : B.head? with
      | none =>
        simp only [deleteNode, hget, hget2, hprev0, hnext0, hp, hq]
        rw [get?_updAt_ne _ _ _ _ hjn,
          get?_updAt_ne _ _ _ _ (fun hcon => hjp (by rw [hp, hcon]))]
      | some s =>
        simp only [deleteNode, hget, hget2, hprev0, hnext0, hp, hq]
        rw [get?_updAt_ne _ _ _ _ hjn,
          get?_updAt_ne _ _ _ _ (fun hcon => hjq (by rw [hq, hcon])),
          get?_updAt_ne _ _ _ _ (fun hcon => hjp (by rw [hp, hcon]))]
  refine ⟨GR, GI, ⟨?_, ?_, ?_, ?_, ?_, ?_⟩, ?_, ?_, ?_⟩
  · exact hnd.sublist ((List.Sublist.cons n (List.Sublist.refl B)).append_left A)
  · intro i hi
    rw [G5]
    exact hb i (by simp only [List.mem_append, List.mem_cons] at hi ⊢; tauto)
  · -- chain
    refine (dChain_append _ _ _ _ _ _).mpr ⟨B.head?, ?_, ?_⟩
    · cases hp : A.getLast? with
      | none =>
        have hAnil : A = [] := Singly.getLast?_eq_none_iff.mp hp
        subst hAnil
        rw [GH]
        rw [hprev0, hp]
        exact hnext0
      | some p =>
        obtain ⟨A0, hA0⟩ := Singly.split_of_getLast? hp
        subst hA0
        obtain ⟨mid2, hcA0, hcp⟩ := (dChain_append _ _ _ _ _ _).mp hcA
        obtain ⟨hmid2, ndp, hgetp, hprevp, hnextp⟩ := hcp
        have hnextp2 : ndp.next = some n := hnextp
        have hpA0 : p ∉ A0 := by
          have hAnodup : (A0 ++ [p]).Nodup := ((List.nodup_append).mp hnd).1
          simp only [List.nodup_append, List.disjoint_singleton] at hAnodup
          tauto
        refine (dChain_append _ _ _ _ _ _).mpr ⟨some p, ?_, ?_⟩
        · rw [GH, hprev0, hp]
          refine dChain_congr _ _ _ _ _ _ ?_ (hmid2 ▸ hcA0)
          intro j hj
          have hjp : (A0 ++ [p]).getLast? ≠ some j := by
            rw [hp]
            intro hcon
            have hpj : p = j := by injection hcon
            exact hpA0 (hpj ▸ hj)
          have hjq : B.head? ≠ some j := by
            intro hcon
            exact hdisj (by simp [hj]) (hsmem j hcon)
          have hjn : j ≠ n := by
            intro hcon
            exact hnA.1 (hcon ▸ (by simp [hj] : j ∈ A0 ++ [p]))
          rw [G4 j hjn hjp hjq]
        · refine ⟨hmid2 ▸ rfl, { ndp with next := nd.next },
            G2 p ndp hp hgetp, hprevp, ?_⟩
          show dChain _ (some p) nd.next [] B.head?
          exact hnext0
    · rw [endPv_none_eq_getLast?, ← hprev0]
      refine dChain_first_prev (dChain_head_eq hcB ▸ hcB) ?_ ?_
      · intro b ndb hq hgetb
        exact G3 b ndb hq hgetb
      · intro i hiB
        have hiB' : i ∈ B := List.mem_of_mem_tail hiB
        have hjq : B.head? ≠ some i := by
          cases hBc : B with
          | nil => subst hBc; cases hiB
          | cons b B' =>
            subst hBc
            intro hcon
            have hbi : b = i := by injection hcon
            subst hbi
            have hBnd : (b :: B').Nodup := by
              have h2 : (n :: b :: B').Nodup := ((List.nodup_append).mp hnd).2.1
              exact (List.nodup_cons.mp h2).2
            exact (List.nodup_cons.mp hBnd).1 (by simpa using hiB)
        have hjp : A.getLast? ≠ some i := by
          intro hcon
          exact hdisj (hpmem i hcon) hiB'
        have hjn : i ≠ n := fun hcon => hnA.2 (hcon ▸ hiB')
        rw [G4 i hjn hjp hjq]
  · -- tail
    rw [GT]
    cases hq : B.head? with
    | none =>
      have hBnil : B = [] := by
        cases B with
        | nil => rfl
        | cons b B' => cases hq
      subst hBnil
      rw [hnext0]
      rw [hprev0]
      simp
    | some s =>
      cases hBc : B with
      | nil => subst hBc; cases hq
      | cons b B' =>
        subst hBc
        rw [hnext0, hq, htl]
        rw [List.getLast?_append_of_ne_nil _ (by simp),
          List.getLast?_append_of_ne_nil _ (by simp)]
        rw [List.getLast?_cons_cons]
  · rw [GS, hsz]
    simp only [List.length_append, List.length_cons]
    omega
  · -- live_mem
    intro i ndi hgeti hlive
    simp only [List.mem_append]
    by_cases hin : i = n
    · subst hin
      rw [G1] at hgeti
      injection hgeti with h2
      rw [← h2] at hlive
      exact absurd rfl hlive
    · cases hp : A.getLast? with
      | some p =>
        by_cases hip : i = p
        · subst hip
          exact Or.inl (hpmem i hp)
        · cases hq : B.head? with
          | some s =>
            by_cases his : i = s
            · subst his
              exact Or.inr (hsmem i hq)
            · rw [G4 i hin (by rw [hp]; intro hcon; exact hip (by injection hcon; omega))
                (by rw [hq]; intro hcon; exact his (by injection hcon; omega))] at hgeti
              have := hlm i ndi hgeti hlive
              simp only [List.mem_append, List.mem_cons] at this
              tauto
          | none =>
            rw [G4 i hin (by rw [hp]; intro hcon; exact hip (by injection hcon; omega))
              (by rw [hq]; simp)] at hgeti
            have := hlm i ndi hgeti hlive
            simp only [List.mem_append, List.mem_cons] at this
            tauto
      | none =>
        cases hq : B.head? with
        | some s =>
          by_cases his : i = s
          · subst his
            exact Or.inr (hsmem i hq)
          · rw [G4 i hin (by rw [hp]; simp)
              (by rw [hq]; intro hcon; exact his (by injection hcon; omega))] at hgeti
            have := hlm i ndi hgeti hlive
            simp only [List.mem_append, List.mem_cons] at this
            tauto
        | none =>
          rw [G4 i hin (by rw [hp]; simp) (by rw [hq]; simp)] at hgeti
          have := hlm i ndi hgeti hlive
          simp only [List.mem_append, List.mem_cons] at this
          tauto
  · rw [dIsDeprecated, G1]
    simp
  · -- deprecation preservation
    intro i hin
    cases hp : A.getLast? with
    | some p =>
      by_cases hip : i = p
      · subst hip
        obtain ⟨ndp, hgetp⟩ := dChain_mem_exists hc i (by simp [hpmem i hp])
        rw [dIsDeprecated, dIsDeprecated, G2 i ndp hp hgetp, hgetp]
        have hnx : ndp.next = some n := by
          obtain ⟨A0, hA0⟩ := Singly.split_of_getLast? hp
          subst hA0
          obtain ⟨mid2, hcA0, hcp⟩ := (dChain_append _ _ _ _ _ _).mp hcA
          obtain ⟨hmid2, ndp', hgetp', hprevp', hnextp'⟩ := hcp
          have : ndp' = ndp := by rw [hgetp'] at hgetp; injection hgetp
          subst this
          exact hnextp'
        dsimp only
        rw [hnx, hnext0]
        cases hq : B.head? with
        | none =>
          have h2 : (some n == some i) = false := by
            rw [beq_eq_false_iff_ne]
            intro hcon
            exact (hpn i hp) (by injection hcon with h3; omega)
          rw [h2]
          rfl
        | some s =>
          have h1 : (some s == some i) = false := by
            rw [beq_eq_false_iff_ne]
            intro hcon
            exact (hps i s hp hq) (by injection hcon with h3; omega)
          have h2 : (some n == some i) = false := by
            rw [beq_eq_false_iff_ne]
            intro hcon
            exact (hpn i hp) (by injection hcon with h3; omega)
          rw [h1, h2]
      · cases hq : B.head? with
        | some s =>
          by_cases his : i = s
          · subst his
            obtain ⟨nds, hgets⟩ := dChain_mem_exists hc i (by simp [hsmem i hq])
            rw [dIsDeprecated, dIsDeprecated, G3 i nds hq hgets, hgets]
          · rw [dIsDeprecated, dIsDeprecated,
              G4 i hin (by rw [hp]; intro hcon; exact hip (by injection hcon; omega))
                (by rw [hq]; intro hcon; exact his (by injection hcon; omega))]
        | none =>
          rw [dIsDeprecated, dIsDeprecated,
            G4 i hin (by rw [hp]; intro hcon; exact hip (by injection hcon; omega))
              (by rw [hq]; simp)]
    | none =>
      cases hq : B.head? with
      | some s =>
        by_cases his : i = s
        · subst his
          obtain ⟨nds, hgets⟩ := dChain_mem_exists hc i (by simp [hsmem i hq])
          rw [dIsDeprecated, dIsDeprecated, G3 i nds hq hgets, hgets]
        · rw [dIsDeprecated, dIsDeprecated,
            G4 i hin (by rw [hp]; simp)
              (by rw [hq]; intro hcon; exact his (by injection hcon; omega))]
      | none =>
        rw [dIsDeprecated, dIsDeprecated,
          G4 i hin (by rw [hp]; simp) (by rw [hq]; simp)]
  · -- isSome preservation
    intro i hin
    cases hp : A.getLast? with
    | some p =>
      by_cases hip : i = p
      · subst hip
        obtain ⟨ndp, hgetp⟩ := dChain_mem_exists hc i (by simp [hpmem i hp])
        rw [G2 i ndp hp hgetp, hgetp]
        rfl
      · cases hq : B.head? with
        | some s =>
          by_cases his : i = s
          · subst his
            obtain ⟨nds, hgets⟩ := dChain_mem_exists hc i (by simp [hsmem i hq])
            rw [G3 i nds hq hgets, hgets]
            rfl
          · rw [G4 i hin (by rw [hp]; intro hcon; exact hip (by injection hcon; omega))
              (by rw [hq]; intro hcon; exact his (by injection hcon; omega))]
        | none =>
          rw [G4 i hin (by rw [hp]; intro hcon; exact hip (by injection hcon; omega))
            (by rw [hq]; simp)]
    | none =>
      cases hq : B.head? with
      | some s =>
        by_cases his : i = s
        · subst his
          obtain ⟨nds, hgets⟩ := dChain_mem_exists hc i (by simp [hsmem i hq])
          rw [G3 i nds hq hgets, hgets]
          rfl
        · rw [G4 i hin (by rw [hp]; simp)
            (by rw [hq]; intro hcon; exact his (by injection hcon; omega))]
      | none =>
        rw [G4 i hin (by rw [hp]; simp) (by rw [hq]; simp)]

/-- `replace` on a valid position: returns the old element, changes only
that node's element and preserves well-formedness on the same ids. -/
theorem dReplace_DWFon {l : DList T} {ids : List Nat} {p : ListPos}
    {n : Nat} {nd : DNode T} (el : T)
    (h : DWFon l ids) (hv : dValidate l p = .ok (n, nd)) :
    (dReplace l p el).1 = .ok nd.element ∧
      DWFon (dReplace l p el).2 ids ∧
      (dReplace l p el).2.head = l.head ∧
      (dReplace l p el).2.tail = l.tail ∧
      (dReplace l p el).2.size = l.size := by
  obtain ⟨hnd0, hb, hc, htl, hsz, hlm⟩ := h
  obtain ⟨hown, hpn, hget, hdep⟩ := dValidate_ok_iff.mp hv
  rw [← hpn] at hget hdep
  have hnodes1 : (dReplace l p el).2.nodes =
      updAt l.nodes n (fun x => { x with element := el }) := by
    simp [dReplace, hv]
  have hhead1 : (dReplace l p el).2.head = l.head := by simp [dReplace, hv]
  have htail1 : (dReplace l p el).2.tail = l.tail := by simp [dReplace, hv]
  have hsize1 : (dReplace l p el).2.size = l.size := by simp [dReplace, hv]
  have hres : (dReplace l p el).1 = .ok nd.element := by simp [dReplace, hv]
  have hlink_pres : ∀ i, ((dReplace l p el).2.nodes.get? i).map (fun x => (x.next, x.prev)) =
      (l.nodes.get? i).map (fun x => (x.next, x.prev)) := by
    intro i
    by_cases hin : i = n
    · subst hin
      rw [hnodes1, get?_updAt_self _ _ _ _ hget, hget]
      rfl
    · rw [hnodes1, get?_updAt_ne _ _ _ _ hin]
  refine ⟨hres, ⟨hnd0, ?_, ?_, ?_, ?_, ?_⟩, hhead1, htail1, hsize1⟩
  · intro i hi
    rw [hnodes1, length_updAt]
    exact hb i hi
  · rw [hhead1]
    exact dChain_congr _ _ _ _ _ _ (fun i _ => hlink_pres i) hc
  · rw [htail1, htl]
  · rw [hsize1, hsz]
  · intro i ndi hgeti hlive
    have hpres := hlink_pres i
    rw [hgeti] at hpres
    cases hgi : l.nodes.get? i with
    | none => rw [hgi] at hpres; simp at hpres
    | some ndo =>
      rw [hgi] at hpres
      simp only [Option.map_some', Option.some.injEq, Prod.mk.injEq] at hpres
      refine hlm i ndo hgi ?_
      rw [← hpres.1]
      exact hlive

/-- The deprecation walk self-links exactly the chain nodes and leaves
every other arena entry untouched. -/
theorem dClearWalk_get? {nodes : List (DNode T)} {pv cur : Option Nat} {ids : List Nat}
    (hc : dChain nodes pv cur ids none) (hnd : ids.Nodup) :
    ∀ fuel, ids.length ≤ fuel → ∀ j,
      (dClearWalk nodes cur fuel).get? j =
        if j ∈ ids then (nodes.get? j).map (fun nd => { nd with next := some j })
        else nodes.get? j := by
  induction ids generalizing nodes pv cur with
  | nil =>
    intro fuel _ j
    cases hc
    cases fuel with
    | zero => simp [dClearWalk]
    | succ f => simp [dClearWalk]
  | cons i rest ih =>
    intro fuel hf j
    obtain ⟨hcur, nd, hget, hpv, hrest⟩ := hc
    subst hcur
    cases fuel with
    | zero => simp at hf
    | succ f =>
      have hir : i ∉ rest := (List.nodup_cons.mp hnd).1
      have hrest1 : dChain (updAt nodes i (fun x => { x with next := some i }))
          (some i) nd.next rest none := by
        refine dChain_congr _ _ _ _ _ _ ?_ hrest
        intro k hk
        have hki : k ≠ i := by
          intro hki
          subst hki
          exact hir hk
        rw [get?_updAt_ne _ _ _ _ hki]
      simp only [dClearWalk, hget]
      rw [ih hrest1 (List.nodup_cons.mp hnd).2 f (by simpa using hf) j]
      by_cases hji : j = i
      · subst hji
        rw [if_neg hir, if_pos (List.mem_cons_self j rest)]
        rw [get?_updAt_self _ _ _ _ hget, hget]
        rfl
      · by_cases hjr : j ∈ rest
        · rw [if_pos hjr, if_pos (List.mem_cons_of_mem _ hjr)]
          rw [get?_updAt_ne _ _ _ _ hji]
        · rw [if_neg hjr, if_neg (by simp [hji, hjr])]
          rw [get?_updAt_ne _ _ _ _ hji]

/-- `clear(false)` empties the bookkeeping and deprecates every node that
was reachable from the old head. -/
theorem dClear_false_spec {l : DList T} {ids : List Nat} (h : DWFon l ids) :
    DWFon (dClear l false) [] ∧
      (∀ j ∈ ids, dIsDeprecated (dClear l false).nodes j = true) ∧
      (dClear l false).head = none ∧ (dClear l false).tail = none ∧
      (dClear l false).size = 0 := by
  obtain ⟨hnd, hb, hc, htl, hsz, hlm⟩ := h
  cases hhd : l.head with
  | none =>
    have hids : ids = [] := by
      cases ids with
      | nil => rfl
      | cons a r => rw [hhd] at hc; exact absurd hc.1 (by simp)
    subst hids
    have hnodes1 : (dClear l false).nodes = l.nodes := by
      simp [dClear, hhd]
    refine ⟨⟨List.nodup_nil, ?_, rfl, rfl, rfl, ?_⟩, ?_, rfl, rfl, rfl⟩
    · intro i hi; cases hi
    · intro i nd hget hlive
      rw [hnodes1] at hget
      exact hlm i nd hget hlive
    · intro j hj; cases hj
  | some h0 =>
    have hfuel : ids.length ≤ l.nodes.length :=
      nodup_bounded_length_le ids l.nodes.length hnd hb
    have hnodes1 : (dClear l false).nodes = dClearWalk l.nodes l.head l.nodes.length := by
      simp [dClear, hhd]
    have hw := dClearWalk_get? hc hnd l.nodes.length hfuel
    refine ⟨⟨List.nodup_nil, ?_, rfl, rfl, rfl, ?_⟩, ?_, rfl, rfl, rfl⟩
    · intro i hi; cases hi
    · intro i nd hget hlive
      rw [hnodes1, hw i] at hget
      by_cases hi : i ∈ ids
      · rw [if_pos hi] at hget
        obtain ⟨nd0, hget0⟩ := dChain_mem_exists hc i hi
        rw [hget0] at hget
        simp only [Option.map_some', Option.some.injEq] at hget
        rw [← hget] at hlive
        exact absurd rfl hlive
      · rw [if_neg hi] at hget
        exact absurd (hlm i nd hget hlive) hi
    · intro j hj
      obtain ⟨nd0, hget0⟩ := dChain_mem_exists hc j hj
      rw [dIsDeprecated, hnodes1, hw j, if_pos hj, hget0]
      simp

/-- `clear(true)` only resets the bookkeeping: the arena is untouched. -/
theorem dClear_true_spec (l : DList T) :
    (dClear l true).nodes = l.nodes ∧ (dClear l true).head = none ∧
      (dClear l true).tail = none ∧ (dClear l true).size = 0 :=
  ⟨rfl, rfl, rfl, rfl⟩

/-- A validated node splits the id sequence, its `prev`/`next` naming the
ends of the two segments. -/
theorem dSplit_of_valid {l : DList T} {ids : List Nat} {p : ListPos}
    {n : Nat} {nd : DNode T}
    (h : DWFon l ids) (hv : dValidate l p = .ok (n, nd)) :
    ∃ A B, ids = A ++ n :: B ∧ nd.prev = A.getLast? ∧ nd.next = B.head? := by
  obtain ⟨hnd, hb, hc, htl, hsz, hlm⟩ := h
  obtain ⟨hown, hpn, hget, hdep⟩ := dValidate_ok_iff.mp hv
  rw [← hpn] at hget hdep
  have hmem : n ∈ ids := hlm n nd hget hdep
  obtain ⟨A, B, hAB⟩ := List.append_of_mem hmem
  subst hAB
  obtain ⟨mid, hcA, hcnB⟩ := (dChain_append _ _ _ _ _ _).mp hc
  have hmid : mid = some n := dChain_head_eq hcnB
  subst hmid
  obtain ⟨-, nd0, hget0, hprev0, hcB⟩ := hcnB
  have hnd0 : nd0 = nd := by rw [hget0] at hget; injection hget
  rw [hnd0] at hprev0 hcB
  rw [endPv_none_eq_getLast?] at hprev0
  exact ⟨A, B, rfl, hprev0, dChain_head_eq hcB⟩

theorem dAddFirst_DWFon {l : DList T} {ids : List Nat} (h : DWFon l ids) (el : T) :
    (dAddFirst l el).1 = ⟨l.nodes.length, l.listId⟩ ∧
      DWFon (dAddFirst l el).2 (l.nodes.length :: ids) := by
  have hhead : l.head = ids.head? := dChain_head_eq h.2.2.1
  have hi := @insertBetween_DWFon T l [] ids el (by simpa using h)
  rw [show (([] : List Nat).getLast?) = none from rfl, ← hhead] at hi
  obtain ⟨h1, h2, h3, -, -⟩ := hi
  constructor
  · simp only [dAddFirst, dCreatePosition, h1]
  · simpa using h3

theorem dAddLast_DWFon {l : DList T} {ids : List Nat} (h : DWFon l ids) (el : T) :
    (dAddLast l el).1 = ⟨l.nodes.length, l.listId⟩ ∧
      DWFon (dAddLast l el).2 (ids ++ [l.nodes.length]) ∧
      dToList (dAddLast l el).2 = dToList l ++ [el] := by
  have htl : l.tail = ids.getLast? := h.2.2.2.1
  have hi := @insertBetween_DWFon T l ids [] el (by simpa using h)
  rw [show (([] : List Nat).head?) = none from rfl, ← htl] at hi
  obtain ⟨h1, h2, h3, h4, h5⟩ := hi
  have hwf : DWFon (dAddLast l el).2 (ids ++ [l.nodes.length]) := by
    simpa using h3
  refine ⟨?_, hwf, ?_⟩
  · simp only [dAddLast, dCreatePosition, h1]
  · rw [dToList_eq hwf, dToList_eq h]
    have hsplit : dElemsAlong (dAddLast l el).2.nodes (ids ++ [l.nodes.length]) =
        dElemsAlong (dAddLast l el).2.nodes ids ++
          dElemsAlong (dAddLast l el).2.nodes [l.nodes.length] := by
      simp only [dElemsAlong, List.filterMap_append]
    rw [hsplit]
    congr 1
    · refine dElemsAlong_congr ?_
      intro i hi2
      have : i ≠ l.nodes.length := by
        have := h.2.1 i hi2
        omega
      exact h4 i this
    · simp only [dElemsAlong, List.filterMap_cons, List.filterMap_nil]
      have h5' : (dAddLast l el).2.nodes.get? l.nodes.length =
          some ⟨el, none, l.tail⟩ := by
        rw [show (dAddLast l el).2.nodes = (insertBetween l el l.tail none).2.nodes from rfl]
        exact h5
      rw [h5']
      rfl

theorem dAddAfter_spec {l : DList T} {ids A B : List Nat} {p : ListPos}
    {n : Nat} {nd : DNode T} (el : T)
    (h : DWFon l ids) (hv : dValidate l p = .ok (n, nd)) (hAB : ids = A ++ n :: B)
    (hprev : nd.prev = A.getLast?) (hnext : nd.next = B.head?) :
    (dAddAfter l p el).1 = .ok ⟨l.nodes.length, l.listId⟩ ∧
      ((dAddAfter l p el).2.nodes.get? l.nodes.length).map DNode.element = some el ∧
      (dAddAfter l p el).2.listId = l.listId ∧
      DWFon (dAddAfter l p el).2 (A ++ n :: l.nodes.length :: B) := by
  subst hAB
  have e1 : (A ++ [n]).getLast? = some n := by
    rw [List.getLast?_append_of_ne_nil _ (by simp)]
    rfl
  have hi := @insertBetween_DWFon T l (A ++ [n]) B el
    (by rw [List.append_assoc]; simpa using h)
  rw [e1, ← hnext] at hi
  obtain ⟨h1, h2, h3, -, h5⟩ := hi
  have hres : dAddAfter l p el =
      (.ok (dCreatePosition l (insertBetween l el (some n) nd.next).1),
        (insertBetween l el (some n) nd.next).2) := by
    simp [dAddAfter, hv]
  refine ⟨?_, ?_, ?_, ?_⟩
  · rw [hres, h1]
    rfl
  · rw [hres]
    show ((insertBetween l el (some n) nd.next).2.nodes.get? l.nodes.length).map
      DNode.element = some el
    rw [h5]
    rfl
  · rw [hres]
    exact h2
  · rw [hres]
    have := h3
    rw [List.append_assoc] at this
    simpa using this

theorem dAddBefore_spec {l : DList T} {ids A B : List Nat} {p : ListPos}
    {n : Nat} {nd : DNode T} (el : T)
    (h : DWFon l ids) (hv : dValidate l p = .ok (n, nd)) (hAB : ids = A ++ n :: B)
    (hprev : nd.prev = A.getLast?) (hnext : nd.next = B.head?) :
    (dAddBefore l p el).1 = .ok ⟨l.nodes.length, l.listId⟩ ∧
      DWFon (dAddBefore l p el).2 (A ++ l.nodes.length :: n :: B) := by
  subst hAB
  have e1 : (n :: B).head? = some n := rfl
  have hi := @insertBetween_DWFon T l A (n :: B) el h
  rw [e1, ← hprev] at hi
  obtain ⟨h1, h2, h3, -, -⟩ := hi
  have hres : dAddBefore l p el =
      (.ok (dCreatePosition l (insertBetween l el nd.prev (some n)).1),
        (insertBetween l el nd.prev (some n)).2) := by
    simp [dAddBefore, hv]
  constructor
  · rw [hres, h1]
    rfl
  · rw [hres]
    exact h3

theorem dDelete_spec {l : DList T} {ids : List Nat} {p : ListPos}
    {n : Nat} {nd : DNode T}
    (h : DWFon l ids) (hv : dValidate l p = .ok (n, nd)) :
    ∃ A B, ids = A ++ n :: B ∧
      (dDelete l p).1 = .ok nd.element ∧
      (dDelete l p).2.listId = l.listId ∧
      DWFon (dDelete l p).2 (A ++ B) ∧
      dIsDeprecated (dDelete l p).2.nodes n = true ∧
      (∀ i, i ≠ n → dIsDeprecated (dDelete l p).2.nodes i = dIsDeprecated l.nodes i) ∧
      (∀ i, i ≠ n → ((dDelete l p).2.nodes.get? i).isSome = (l.nodes.get? i).isSome) := by
  obtain ⟨hown, hpn, hget, hdep⟩ := dValidate_ok_iff.mp hv
  rw [← hpn] at hget hdep
  obtain ⟨A, B, hAB, hprev, hnext⟩ := dSplit_of_valid h hv
  have hd := deleteNode_DWFon (hAB ▸ h) hget
  cases hdel : deleteNode l n with
  | mk r1 l2 =>
    rw [hdel] at hd
    dsimp only at hd
    obtain ⟨hd1, hd2⟩ := hd
    subst hd1
    have hres : dDelete l p = (.ok nd.element, l2) := by
      unfold dDelete
      rw [hv]
      dsimp only
      rw [hdel]
    refine ⟨A, B, hAB, ?_, ?_, ?_, ?_, ?_, ?_⟩
    · rw [hres]
    · rw [hres]; exact hd2.1
    · rw [hres]; exact hd2.2.1
    · rw [hres]; exact hd2.2.2.1
    · intro i hin
      rw [hres]
      exact hd2.2.2.2.1 i hin
    · intro i hin
      rw [hres]
      exact hd2.2.2.2.2 i hin

theorem dRemoveFirst_spec {l : DList T} {ids : List Nat} {h0 : Nat}
    (h : DWFon l ids) (hhd : l.head = some h0) :
    ∃ rest nd, ids = h0 :: rest ∧ l.nodes.get? h0 = some nd ∧
      (dRemoveFirst l).1 = .ok nd.element ∧
      (dRemoveFirst l).2.listId = l.listId ∧
      DWFon (dRemoveFirst l).2 rest ∧
      dIsDeprecated (dRemoveFirst l).2.nodes h0 = true ∧
      (∀ i, i ≠ h0 → dIsDeprecated (dRemoveFirst l).2.nodes i = dIsDeprecated l.nodes i) ∧
      (∀ i, i ≠ h0 → ((dRemoveFirst l).2.nodes.get? i).isSome = (l.nodes.get? i).isSome) := by
  obtain ⟨rest, hids⟩ : ∃ rest, ids = h0 :: rest := by
    have hh : l.head = ids.head? := dChain_head_eq h.2.2.1
    rw [hhd] at hh
    cases ids with
    | nil => cases hh
    | cons a r =>
      have : h0 = a := by injection hh
      subst this
      exact ⟨r, rfl⟩
  subst hids
  obtain ⟨nd, hget⟩ := dChain_mem_exists h.2.2.1 h0 (by simp)
  have hd := @deleteNode_DWFon T l [] rest h0 nd (by simpa using h) hget
  cases hdel : deleteNode l h0 with
  | mk r1 l2 =>
    rw [hdel] at hd
    dsimp only at hd
    obtain ⟨hd1, hd2⟩ := hd
    subst hd1
    have hres : dRemoveFirst l = (.ok nd.element, l2) := by
      unfold dRemoveFirst
      rw [hhd]
      dsimp only
      rw [hdel]
    refine ⟨rest, nd, rfl, hget, ?_, ?_, ?_, ?_, ?_, ?_⟩
    · rw [hres]
    · rw [hres]; exact hd2.1
    · rw [hres]; exact (by simpa using hd2.2.1)
    · rw [hres]; exact hd2.2.2.1
    · intro i hin
      rw [hres]
      exact hd2.2.2.2.1 i hin
    · intro i hin
      rw [hres]
      exact hd2.2.2.2.2 i hin

theorem dRemoveLast_spec {l : DList T} {ids : List Nat} {t0 : Nat}
    (h : DWFon l ids) (htt : l.tail = some t0) :
    ∃ init nd, ids = init ++ [t0] ∧ l.nodes.get? t0 = some nd ∧
      (dRemoveLast l).1 = .ok nd.element ∧
      (dRemoveLast l).2.listId = l.listId ∧
      DWFon (dRemoveLast l).2 init ∧
      dIsDeprecated (dRemoveLast l).2.nodes t0 = true ∧
      (∀ i, i ≠ t0 → dIsDeprecated (dRemoveLast l).2.nodes i = dIsDeprecated l.nodes i) ∧
      (∀ i, i ≠ t0 → ((dRemoveLast l).2.nodes.get? i).isSome = (l.nodes.get? i).isSome) := by
  obtain ⟨init, hids⟩ : ∃ init, ids = init ++ [t0] := by
    apply Singly.split_of_getLast?
    rw [← h.2.2.2.1]
    exact htt
  subst hids
  obtain ⟨nd, hget⟩ := dChain_mem_exists h.2.2.1 t0 (by simp)
  have hd := @deleteNode_DWFon T l init [] t0 nd (by simpa using h) hget
  cases hdel : deleteNode l t0 with
  | mk r1 l2 =>
    rw [hdel] at hd
    dsimp only at hd
    obtain ⟨hd1, hd2⟩ := hd
    subst hd1
    have hres : dRemoveLast l = (.ok nd.element, l2) := by
      unfold dRemoveLast
      rw [htt]
      dsimp only
      rw [hdel]
    refine ⟨init, nd, rfl, hget, ?_, ?_, ?_, ?_, ?_, ?_⟩
    · rw [hres]
    · rw [hres]; exact hd2.1
    · rw [hres]; exact (by simpa using hd2.2.1)
    · rw [hres]; exact hd2.2.2.1
    · intro i hin
      rw [hres]
      exact hd2.2.2.2.1 i hin
    · intro i hin
      rw [hres]
      exact hd2.2.2.2.2 i hin

theorem dAddAfter_error {l : DList T} {p : ListPos} {el : T} {e : ErrKind}
    (h : (dAddAfter l p el).1 = .error e) : (dAddAfter l p el).2 = l := by
  cases hv : dValidate l p with
  | error e' => simp [dAddAfter, hv]
  | ok v =>
    obtain ⟨n, nd⟩ := v
    rw [show (dAddAfter l p el).1 =
      .ok (dCreatePosition l (insertBetween l el (some n) nd.next).1) from by
        simp [dAddAfter, hv]] at h
    cases h

theorem dAddBefore_error {l : DList T} {p : ListPos} {el : T} {e : ErrKind}
    (h : (dAddBefore l p el).1 = .error e) : (dAddBefore l p el).2 = l := by
  cases hv : dValidate l p with
  | error e' => simp [dAddBefore, hv]
  | ok v =>
    obtain ⟨n, nd⟩ := v
    rw [show (dAddBefore l p el).1 =
      .ok (dCreatePosition l (insertBetween l el nd.prev (some n)).1) from by
        simp [dAddBefore, hv]] at h
    cases h

theorem dReplace_error {l : DList T} {p : ListPos} {el : T} {e : ErrKind}
    (h : (dReplace l p el).1 = .error e) : (dReplace l p el).2 = l := by
  cases hv : dValidate l p with
  | error e' => simp [dReplace, hv]
  | ok v =>
    obtain ⟨n, nd⟩ := v
    rw [show (dReplace l p el).1 = .ok nd.element from by simp [dReplace, hv]] at h
    cases h

theorem dDelete_error {l : DList T} {p : ListPos} {e : ErrKind}
    (h : (dDelete l p).1 = .error e) : (dDelete l p).2 = l := by
  cases hv : dValidate l p with
  | error e' => simp [dDelete, hv]
  | ok v =>
    obtain ⟨n, nd⟩ := v
    cases hget : l.nodes.get? n with
    | none =>
      have : deleteNode l n = (none, l) := by
        unfold deleteNode
        rw [hget]
      simp [dDelete, hv, this]
    | some nd0 =>
      have hd1 : (deleteNode l n).1 = some nd0.element := by
        have hget2 : l.nodes[n]? = some nd0 := by
          rw [← List.get?_eq_getElem?]
          exact hget
        cases hp : nd0.prev <;> cases hq : nd0.next <;>
          simp [deleteNode, hget, hget2, hp, hq]
      cases hdel : deleteNode l n with
      | mk r1 l2 =>
        rw [hdel] at hd1
        dsimp only at hd1
        subst hd1
        rw [show (dDelete l p).1 = .ok nd0.element from by
          unfold dDelete
          rw [hv]
          dsimp only
          rw [hdel]] at h
        cases h

theorem dRemoveFirst_error {l : DList T} {e : ErrKind}
    (h : (dRemoveFirst l).1 = .error e) : (dRemoveFirst l).2 = l := by
  cases hhd : l.head with
  | none => simp [dRemoveFirst, hhd]
  | some h0 =>
    cases hget : l.nodes.get? h0 with
    | none =>
      have : deleteNode l h0 = (none, l) := by
        unfold deleteNode
        rw [hget]
      simp [dRemoveFirst, hhd, this]
    | some nd0 =>
      have hd1 : (deleteNode l h0).1 = some nd0.element := by
        have hget2 : l.nodes[h0]? = some nd0 := by
          rw [← List.get?_eq_getElem?]
          exact hget
        cases hp : nd0.prev <;> cases hq : nd0.next <;>
          simp [deleteNode, hget, hget2, hp, hq]
      cases hdel : deleteNode l h0 with
      | mk r1 l2 =>
        rw [hdel] at hd1
        dsimp only at hd1
        subst hd1
        rw [show (dRemoveFirst l).1 = .ok nd0.element from by
          unfold dRemoveFirst
          rw [hhd]
          dsimp only
          rw [hdel]] at h
        cases h

theorem dRemoveLast_error {l : DList T} {e : ErrKind}
    (h : (dRemoveLast l).1 = .error e) : (dRemoveLast l).2 = l := by
  cases htt : l.tail with
  | none => simp [dRemoveLast, htt]
  | some t0 =>
    cases hget : l.nodes.get? t0 with
    | none =>
      have : deleteNode l t0 = (none, l) := by
        unfold deleteNode
        rw [hget]
      simp [dRemoveLast, htt, this]
    | some nd0 =>
      have hd1 : (deleteNode l t0).1 = some nd0.element := by
        have hget2 : l.nodes[t0]? = some nd0 := by
          rw [← List.get?_eq_getElem?]
          exact hget
        cases hp : nd0.prev <;> cases hq : nd0.next <;>
          simp [deleteNode, hget, hget2, hp, hq]
      cases hdel : deleteNode l t0 with
      | mk r1 l2 =>
        rw [hdel] at hd1
        dsimp only at hd1
        subst hd1
        rw [show (dRemoveLast l).1 = .ok nd0.element from by
          unfold dRemoveLast
          rw [htt]
          dsimp only
          rw [hdel]] at h
        cases h

theorem dGetAfter_state (l : DList T) (p : ListPos) : (dGetAfter l p).2 = l := by
  cases hv : dValidate l p with
  | error e => simp [dGetAfter, hv]
  | ok v => obtain ⟨n, nd⟩ := v; simp [dGetAfter, hv]

theorem dGetBefore_state (l : DList T) (p : ListPos) : (dGetBefore l p).2 = l := by
  cases hv : dValidate l p with
  | error e => simp [dGetBefore, hv]
  | ok v => obtain ⟨n, nd⟩ := v; simp [dGetBefore, hv]

/-- Every single call preserves well-formedness. -/
theorem dStep_DWF {l : DList T} (h : DWF l) (op : DOp T) : DWF (dStep l op) := by
  obtain ⟨ids, hids⟩ := h
  cases op with
  | addFirst el => exact ⟨_, (dAddFirst_DWFon hids el).2⟩
  | addLast el => exact ⟨_, (dAddLast_DWFon hids el).2.1⟩
  | addAfter p el =>
    cases hv : dValidate l p with
    | error e =>
      have heq : (dAddAfter l p el).2 = l := by simp [dAddAfter, hv]
      rw [dStep, heq]
      exact ⟨ids, hids⟩
    | ok v =>
      obtain ⟨n, nd⟩ := v
      obtain ⟨A, B, hAB, hprev, hnext⟩ := dSplit_of_valid hids hv
      exact ⟨_, (dAddAfter_spec el hids hv hAB hprev hnext).2.2.2⟩
  | addBefore p el =>
    cases hv : dValidate l p with
    | error e =>
      have heq : (dAddBefore l p el).2 = l := by simp [dAddBefore, hv]
      rw [dStep, heq]
      exact ⟨ids, hids⟩
    | ok v =>
      obtain ⟨n, nd⟩ := v
      obtain ⟨A, B, hAB, hprev, hnext⟩ := dSplit_of_valid hids hv
      exact ⟨_, (dAddBefore_spec el hids hv hAB hprev hnext).2⟩
  | removeFirst =>
    cases hhd : l.head with
    | none =>
      have heq : (dRemoveFirst l).2 = l := by simp [dRemoveFirst, hhd]
      rw [dStep, heq]
      exact ⟨ids, hids⟩
    | some h0 =>
      obtain ⟨rest, nd, -, -, -, -, hwf, -, -, -⟩ := dRemoveFirst_spec hids hhd
      exact ⟨rest, hwf⟩
  | removeLast =>
    cases htt : l.tail with
    | none =>
      have heq : (dRemoveLast l).2 = l := by simp [dRemoveLast, htt]
      rw [dStep, heq]
      exact ⟨ids, hids⟩
    | some t0 =>
      obtain ⟨init, nd, -, -, -, -, hwf, -, -, -⟩ := dRemoveLast_spec hids htt
      exact ⟨init, hwf⟩
  | delete p =>
    cases hv : dValidate l p with
    | error e =>
      have heq : (dDelete l p).2 = l := by simp [dDelete, hv]
      rw [dStep, heq]
      exact ⟨ids, hids⟩
    | ok v =>
      obtain ⟨n, nd⟩ := v
      obtain ⟨A, B, -, -, -, hwf, -, -, -⟩ := dDelete_spec hids hv
      exact ⟨_, hwf⟩
  | replaceAt p el =>
    cases hv : dValidate l p with
    | error e =>
      have heq : (dReplace l p el).2 = l := by simp [dReplace, hv]
      rw [dStep, heq]
      exact ⟨ids, hids⟩
    | ok v =>
      obtain ⟨n, nd⟩ := v
      exact ⟨ids, (dReplace_DWFon el hids hv).2.1⟩
  | clearAll => exact ⟨[], (dClear_false_spec hids).1⟩

/-- Every reachable list state is well-formed. -/
theorem dRun_DWF (ops : List (DOp T)) : DWF (dRun ops) := by
  have hgen : ∀ (l : DList T), DWF l → DWF (ops.foldl dStep l) := by
    induction ops with
    | nil => intro l h; exact h
    | cons op rest ih =>
      intro l h
      exact ih _ (dStep_DWF h op)
  exact hgen dEmpty ⟨[], dEmpty_DWFon⟩

end AdsJs.Doubly

namespace AdsJs.Trees

variable {T : Type}

theorem traverseBinary_fst (t : BTree T) :
    ∀ idx, ((traverseBinary t idx).1).map Prod.fst = preElems t := by
  induction t with
  | nil => intro idx; rfl
  | node el l r ihl ihr =>
    intro idx
    simp only [traverseBinary, preElems, List.map_cons, List.map_append]
    rw [ihl, ihr]

theorem traverseBinary_counter (t : BTree T) :
    ∀ idx, (traverseBinary t idx).2 = idx + (preElems t).length := by
  induction t with
  | nil => intro idx; simp [traverseBinary, preElems]
  | node el l r ihl ihr =>
    intro idx
    simp only [traverseBinary, preElems, List.length_cons, List.length_append]
    rw [ihr, ihl]
    omega

theorem preElems_length (t : BTree T) :
    ∀ idx, ((traverseBinary t idx).1).length = (preElems t).length := by
  induction t with
  | nil => intro idx; rfl
  | node el l r ihl ihr =>
    intro idx
    simp only [traverseBinary, preElems, List.length_cons, List.length_append]
    rw [ihl, ihr]

theorem traverseBinary_snd (t : BTree T) :
    ∀ idx, ((traverseBinary t idx).1).map Prod.snd =
      List.range' idx (preElems t).length := by
  induction t with
  | nil => intro idx; rfl
  | node el l r ihl ihr =>
    intro idx
    simp only [traverseBinary, preElems, List.map_cons, List.map_append,
      List.length_cons, List.length_append]
    rw [ihl, ihr, traverseBinary_counter l]
    have happ : List.range' (idx + 1) (preElems l).length ++
        List.range' (idx + 1 + (preElems l).length) (preElems r).length =
        List.range' (idx + 1) ((preElems l).length + (preElems r).length) := by
      have h0 := List.range'_append (idx + 1) (preElems l).length (preElems r).length 1
      simp only [Nat.one_mul, Nat.mul_one] at h0
      rw [h0, Nat.add_comm ((preElems r).length) ((preElems l).length)]
    rw [happ]
    have hsucc := List.range'_succ idx ((preElems l).length + (preElems r).length) 1
    rw [hsucc]

end AdsJs.Trees

namespace AdsJs.Searches

variable {T : Type}

theorem part_lengths (compare : T → T → ComparisonResult) (pivot : T) (arr : List T) :
    (lessPart compare pivot arr).length + (equalPart compare pivot arr).length +
      (greaterPart compare pivot arr).length = arr.length := by
  induction arr with
  | nil => rfl
  | cons a rest ih =>
    simp only [lessPart, equalPart, greaterPart, List.filter_cons] at ih ⊢
    cases hcmp : compare a pivot <;> simp only [hcmp] <;> simp <;> omega

theorem quickSelectLoop_ok (compare : T → T → ComparisonResult)
    (choose : List T → Nat) (arr0 : List T)
    (href : ∀ x ∈ arr0, compare x x = .equal) :
    ∀ fuel arr n, arr ⊆ arr0 → arr.length ≤ fuel → 1 ≤ n → n ≤ arr.length →
      ∃ x, quickSelectLoop compare choose fuel arr n = some x ∧ x ∈ arr := by
  intro fuel
  induction fuel with
  | zero =>
    intro arr n _ hlen h1 h2
    omega
  | succ f ih =>
    intro arr n hsub hlen h1 h2
    by_cases hgt : 1 < arr.length
    · have hpivmem : arr.get ⟨choose arr % arr.length, Nat.mod_lt _ (by omega)⟩ ∈ arr :=
        List.get_mem _ _ _
      set pivot := arr.get ⟨choose arr % arr.length, Nat.mod_lt _ (by omega)⟩ with hpiv
      have hrefl : compare pivot pivot = .equal := href pivot (hsub hpivmem)
      have hpiveq : pivot ∈ equalPart compare pivot arr := by
        rw [equalPart, List.mem_filter]
        refine ⟨hpivmem, ?_⟩
        rw [hrefl]
      have heq1 : 1 ≤ (equalPart compare pivot arr).length :=
        List.length_pos.mpr (List.ne_nil_of_mem hpiveq)
      have hparts := part_lengths compare pivot arr
      have hloop : quickSelectLoop compare choose (f + 1) arr n =
          if n ≤ (lessPart compare pivot arr).length then
            quickSelectLoop compare choose f (lessPart compare pivot arr) n
          else if n ≤ (lessPart compare pivot arr).length +
              (equalPart compare pivot arr).length then some pivot
          else quickSelectLoop compare choose f (greaterPart compare pivot arr)
            (n - ((lessPart compare pivot arr).length +
              (equalPart compare pivot arr).length)) := by
        rw [quickSelectLoop]
        rw [dif_pos hgt]
      rw [hloop]
      by_cases hc1 : n ≤ (lessPart compare pivot arr).length
      · rw [if_pos hc1]
        obtain ⟨x, hx, hmem⟩ := ih (lessPart compare pivot arr) n
          (fun y hy => hsub (List.mem_of_mem_filter hy))
          (by omega) h1 hc1
        exact ⟨x, hx, List.mem_of_mem_filter hmem⟩
      · rw [if_neg hc1]
        by_cases hc2 : n ≤ (lessPart compare pivot arr).length +
            (equalPart compare pivot arr).length
        · rw [if_pos hc2]
          exact ⟨pivot, rfl, hpivmem⟩
        · rw [if_neg hc2]
          obtain ⟨x, hx, hmem⟩ := ih (greaterPart compare pivot arr)
            (n - ((lessPart compare pivot arr).length +
              (equalPart compare pivot arr).length))
            (fun y hy => hsub (List.mem_of_mem_filter hy))
            (by omega) (by omega) (by omega)
          exact ⟨x, hx, List.mem_of_mem_filter hmem⟩
    · have hlen1 : arr.length = 1 := by omega
      cases arr with
      | nil => simp at hlen1
      | cons a rest =>
        have hrest : rest = [] := by
          simp only [List.length_cons] at hlen1
          exact List.length_eq_zero.mp (by omega)
        subst hrest
        refine ⟨a, ?_, by simp⟩
        rw [quickSelectLoop, dif_neg hgt]
        rfl

end AdsJs.Searches

namespace AdsJs.Singly

variable {T : Type}

theorem sValidate_error_of_deprecated {l : SList T} {p : ListPos}
    (h : sIsDeprecated l.nodes p.node = true) :
    sValidate l p = .error .invalidPosition := by
  unfold sValidate
  by_cases how : p.owner = l.listId
  · rw [if_pos how]
    unfold sIsDeprecated at h
    cases hget : l.nodes.get? p.node with
    | none => rfl
    | some nd =>
      rw [hget] at h
      dsimp only at h
      dsimp only
      rw [if_pos (eq_of_beq h)]
  · rw [if_neg how]

theorem sValidate_eq_of_pres {l l' : SList T} (p : ListPos)
    (hid : l'.listId = l.listId)
    (hget : l'.nodes.get? p.node = l.nodes.get? p.node) :
    sValidate l' p = sValidate l p := by
  unfold sValidate
  rw [hid, hget]

theorem sReplace_isOk_of_valid {l : SList T} {p : ListPos} (x : T)
    (h : (sValidate l p).isOk = true) : ((sReplace l p x).1).isOk = true := by
  obtain ⟨nd, hv⟩ := sValidate_isOk_elim h
  rw [show (sReplace l p x).1 = .ok nd.element from by simp [sReplace, hv]]
  rfl

theorem sRemoveFirst_listId (l : SList T) : (sRemoveFirst l).2.listId = l.listId := by
  cases hhd : l.head with
  | none => simp [sRemoveFirst, hhd]
  | some h0 =>
    cases hget : l.nodes.get? h0 with
    | none =>
      have hget2 : l.nodes[h0]? = none := by rw [← List.get?_eq_getElem?]; exact hget
      simp [sRemoveFirst, hhd, hget, hget2]
    | some nd =>
      have hget2 : l.nodes[h0]? = some nd := by rw [← List.get?_eq_getElem?]; exact hget
      simp [sRemoveFirst, hhd, hget, hget2]

theorem sAddAfter_listId (l : SList T) (p : ListPos) (el : T) :
    (sAddAfter l p el).2.listId = l.listId := by
  cases hv : sValidate l p with
  | error e => simp [sAddAfter, hv]
  | ok v =>
    obtain ⟨n, nd⟩ := v
    simp [sAddAfter, hv]

theorem sLive_false {l : SList T} {ids : List Nat} (h : SWFon l ids) :
    ∀ i ∈ ids, sIsDeprecated l.nodes i = false := by
  obtain ⟨hnd, -, hc, -, -, -⟩ := h
  intro i hi
  obtain ⟨nd, hget, hne⟩ := sChain_live hc hnd i hi
  unfold sIsDeprecated
  rw [hget]
  dsimp only
  rw [beq_eq_false_iff_ne]
  exact hne

end AdsJs.Singly

namespace AdsJs.Doubly

variable {T : Type}

theorem dValidate_error_of_deprecated {l : DList T} {p : ListPos}
    (h : dIsDeprecated l.nodes p.node = true) :
    dValidate l p = .error .invalidPosition := by
  unfold dValidate
  by_cases how : p.owner = l.listId
  · rw [if_pos how]
    unfold dIsDeprecated at h
    cases hget : l.nodes.get? p.node with
    | none => rfl
    | some nd =>
      rw [hget] at h
      dsimp only at h
      dsimp only
      rw [if_pos (eq_of_beq h)]
  · rw [if_neg how]

theorem dReplace_isOk_of_valid {l : DList T} {p : ListPos} (x : T)
    (h : (dValidate l p).isOk = true) : ((dReplace l p x).1).isOk = true := by
  obtain ⟨nd, hv⟩ := dValidate_isOk_elim h
  rw [show (dReplace l p x).1 = .ok nd.element from by simp [dReplace, hv]]
  rfl

theorem dLive_false {l : DList T} {ids : List Nat} (h : DWFon l ids) :
    ∀ i ∈ ids, dIsDeprecated l.nodes i = false := by
  obtain ⟨hnd, -, hc, -, -, -⟩ := h
  intro i hi
  obtain ⟨nd, hget, hne⟩ := dChain_live hc hnd i hi
  unfold dIsDeprecated
  rw [hget]
  dsimp only
  rw [beq_eq_false_iff_ne]
  exact hne

theorem dChain_next_prev {nodes : List (DNode T)} {pv cur : Option Nat} {ids : List Nat}
    (hc : dChain nodes pv cur ids none) :
    ∀ i ndi j, i ∈ ids → nodes.get? i = some ndi → ndi.next = some j →
      ∃ ndj, nodes.get? j = some ndj ∧ ndj.prev = some i := by
  induction ids generalizing pv cur with
  | nil => intro i _ _ hi; cases hi
  | cons a rest ih =>
    obtain ⟨hcur, nd, hget, hpv, hrest⟩ := hc
    intro i ndi j hi hgeti hnext
    rcases List.mem_cons.mp hi with hia | hir
    · subst hia
      have hndeq : nd = ndi := by rw [hget] at hgeti; injection hgeti
      subst hndeq
      cases rest with
      | nil =>
        have hn : nd.next = none := hrest
        rw [hn] at hnext
        cases hnext
      | cons b rest' =>
        obtain ⟨hnb, ndb, hgetb, hpvb, -⟩ := hrest
        rw [hnb] at hnext
        have hjb : b = j := by injection hnext
        subst hjb
        exact ⟨ndb, hgetb, hpvb⟩
    · exact ih hrest i ndi j hir hgeti hnext

theorem dChain_prev_next {nodes : List (DNode T)} {pv cur : Option Nat} {ids : List Nat}
    (hc : dChain nodes pv cur ids none)
    (hside : ∀ i, pv = some i → ∃ ndi, nodes.get? i = some ndi ∧ ndi.next = cur) :
    ∀ j ndj i, j ∈ ids → nodes.get? j = some ndj → ndj.prev = some i →
      ∃ ndi, nodes.get? i = some ndi ∧ ndi.next = some j := by
  induction ids generalizing pv cur with
  | nil => intro j _ _ hj; cases hj
  | cons a rest ih =>
    obtain ⟨hcur, nd, hget, hpv, hrest⟩ := hc
    intro j ndj i hj hgetj hprevj
    rcases List.mem_cons.mp hj with hja | hjr
    · subst hja
      have hndeq : nd = ndj := by rw [hget] at hgetj; injection hgetj
      subst hndeq
      rw [hpv] at hprevj
      obtain ⟨ndi, hgeti, hni⟩ := hside i hprevj
      rw [hcur] at hni
      exact ⟨ndi, hgeti, hni⟩
    · refine ih hrest ?_ j ndj i hjr hgetj hprevj
      intro i' hpv'
      have hia : a = i' := by injection hpv'
      subst hia
      exact ⟨nd, hget, rfl⟩

end AdsJs.Doubly

namespace AdsJs

/-- C4: on a freshly constructed empty list (singly or doubly linked),
`removeFirst` and `removeLast` fail with the `EmptyContainer` error kind,
while `getFirst` and `getLast` return the absent value and never raise an
error. -/
theorem claim_C4_empty_container :
    (Singly.sRemoveFirst (Singly.sFromArray ([] : List Nat))).1 = .error .emptyContainer ∧
    Singly.sGetFirst (Singly.sFromArray ([] : List Nat)) = none ∧
    Singly.sGetLast (Singly.sFromArray ([] : List Nat)) = none ∧
    (Doubly.dRemoveFirst (Doubly.dFromArray ([] : List Nat))).1 = .error .emptyContainer ∧
    (Doubly.dRemoveLast (Doubly.dFromArray ([] : List Nat))).1 = .error .emptyContainer ∧
    Doubly.dGetFirst (Doubly.dFromArray ([] : List Nat)) = none ∧
    Doubly.dGetLast (Doubly.dFromArray ([] : List Nat)) = none :=
  ⟨rfl, rfl, rfl, rfl, rfl, rfl, rfl⟩

/-- C3: after any sequence of mutating calls starting from an empty list,
`size` equals the number of live (non-deprecated) nodes reachable from
head, in both list variants. -/
theorem claim_C3_size_invariant :
    (∀ (ops : List (Singly.SOp Nat)),
      (Singly.sRun ops).size = Singly.sLiveCount (Singly.sRun ops)) ∧
    (∀ (ops : List (Doubly.DOp Nat)),
      (Doubly.dRun ops).size = Doubly.dLiveCount (Doubly.dRun ops)) := by
  constructor
  · intro ops
    obtain ⟨ids, hwf⟩ := Singly.sRun_SWF ops
    have hreach := Singly.sReach_eq hwf
    have hlive := Singly.sLive_false hwf
    have hfilter : ids.filter (fun i => !(Singly.sIsDeprecated (Singly.sRun ops).nodes i)) =
        ids :=
      List.filter_eq_self.mpr (fun i hi => by rw [hlive i hi]; rfl)
    rw [Singly.sLiveCount, hreach, hfilter]
    exact hwf.2.2.2.2.1
  · intro ops
    obtain ⟨ids, hwf⟩ := Doubly.dRun_DWF ops
    have hreach := Doubly.dReach_eq hwf
    have hlive := Doubly.dLive_false hwf
    have hfilter : ids.filter (fun i => !(Doubly.dIsDeprecated (Doubly.dRun ops).nodes i)) =
        ids :=
      List.filter_eq_self.mpr (fun i hi => by rw [hlive i hi]; rfl)
    rw [Doubly.dLiveCount, hreach, hfilter]
    exact hwf.2.2.2.2.1

theorem Singly.sFoldAddLast {T : Type} (arr : List T) :
    ∀ (l : Singly.SList T) (ids : List Nat), Singly.SWFon l ids →
      Singly.sToList (arr.foldl (fun l el => (Singly.sAddLast l el).2) l) =
        Singly.sToList l ++ arr := by
  induction arr with
  | nil => intro l ids h; simp
  | cons a rest ih =>
    intro l ids h
    obtain ⟨hwf', helems⟩ := Singly.sAddLast_SWFon h a
    simp only [List.foldl_cons]
    rw [ih _ _ hwf', helems, List.append_assoc]
    rfl

theorem Doubly.dFoldAddLast {T : Type} (arr : List T) :
    ∀ (l : Doubly.DList T) (ids : List Nat), Doubly.DWFon l ids →
      Doubly.dToList (arr.foldl (fun l el => (Doubly.dAddLast l el).2) l) =
        Doubly.dToList l ++ arr := by
  induction arr with
  | nil => intro l ids h; simp
  | cons a rest ih =>
    intro l ids h
    obtain ⟨-, hwf', helems⟩ := Doubly.dAddLast_DWFon h a
    simp only [List.foldl_cons]
    rw [ih _ _ hwf', helems, List.append_assoc]
    rfl

/-- C8: constructing a list (singly or doubly linked) from an array and
iterating it yields exactly that array, for every array including the
empty one. -/
theorem claim_C8_roundtrip (T : Type) (arr : List T) :
    Singly.sToList (Singly.sFromArray arr) = arr ∧
    Doubly.dToList (Doubly.dFromArray arr) = arr := by
  constructor
  · have h2 : Singly.sFromArray arr =
        arr.foldl (fun l el => (Singly.sAddLast l el).2) Singly.sEmpty := rfl
    rw [h2, Singly.sFoldAddLast arr Singly.sEmpty [] Singly.sEmpty_SWFon]
    rfl
  · have h2 : Doubly.dFromArray arr =
        arr.foldl (fun l el => (Doubly.dAddLast l el).2) Doubly.dEmpty := rfl
    rw [h2, Doubly.dFoldAddLast arr Doubly.dEmpty [] Doubly.dEmpty_DWFon]
    rfl

/-- C7: preorder traversal of the tree built by `addRoot(1)`,
`addLeft(root,2)`, `addRight(root,3)`, `addLeft(pos(2),4)` invokes the
visitor exactly four times, on `[1, 2, 4, 3]` with indices `[0, 1, 2, 3]`;
in general `traverseBinary` visits the current element first, then the
left subtree, then the right subtree, and the index metadata numbers the
visits in order starting from the initial index. -/
theorem claim_C7_preorder :
    (Trees.traverseBinary Trees.c7Tree 0).1 = [(1, 0), (2, 1), (4, 2), (3, 3)] ∧
    (∀ (T : Type) (el : T) (l r : Trees.BTree T) (idx : Nat),
      ((Trees.traverseBinary (Trees.BTree.node el l r) idx).1).map Prod.fst =
        el :: (((Trees.traverseBinary l 0).1).map Prod.fst ++
          ((Trees.traverseBinary r 0).1).map Prod.fst)) ∧
    (∀ (T : Type) (t : Trees.BTree T),
      ((Trees.traverseBinary t 0).1).map Prod.snd =
        List.range ((Trees.traverseBinary t 0).1).length) := by
  refine ⟨rfl, ?_, ?_⟩
  · intro T el l r idx
    rw [Trees.traverseBinary_fst, Trees.traverseBinary_fst, Trees.traverseBinary_fst]
    rfl
  · intro T t
    rw [Trees.traverseBinary_snd, Trees.preElems_length t 0, List.range_eq_range']

/-- C10: `quickSelect(arr, n, compare)` errors exactly when the array is
empty or `n` is out of bounds; for every in-bounds `n` it terminates and
returns an element of `arr`, whatever pivot is chosen at each step —
assuming the comparator meets its contract on the array's elements
(`compare x x = EQUAL`). -/
theorem claim_C10_quickselect :
    ∀ (T : Type) (compare : T → T → Searches.ComparisonResult)
      (choose : List T → Nat) (arr : List T) (n : Int),
      (∀ x ∈ arr, compare x x = .equal) →
      (((Searches.quickSelect compare choose arr n).isOk = false) ↔
        (arr = [] ∨ n < 0 ∨ (arr.length : Int) ≤ n)) ∧
      ((arr ≠ [] ∧ 0 ≤ n ∧ n < (arr.length : Int)) →
        ∃ x, Searches.quickSelect compare choose arr n = .ok x ∧ x ∈ arr) := by
  intro T compare choose arr n href
  by_cases h0 : arr.length = 0
  · have harr : arr = [] := List.length_eq_zero.mp h0
    subst harr
    have hqs : Searches.quickSelect compare choose ([] : List T) n =
        .error "Can not select from an empty array" := by
      rw [Searches.quickSelect, if_pos (show List.length ([] : List T) = 0 from rfl)]
    constructor
    · rw [hqs]
      constructor
      · intro _
        exact Or.inl rfl
      · intro _
        rfl
    · rintro ⟨hne, -, -⟩
      exact absurd rfl hne
  · by_cases h1 : n < 0 ∨ (arr.length : Int) ≤ n
    · have hqs : Searches.quickSelect compare choose arr n =
          .error "Can not select item from outside of the array bounds" := by
        rw [Searches.quickSelect, if_neg h0, if_pos h1]
      constructor
      · rw [hqs]
        simp only [Except.isOk]
        constructor
        · intro _
          rcases h1 with h | h
          · exact Or.inr (Or.inl h)
          · exact Or.inr (Or.inr h)
        · intro _
          rfl
      · rintro ⟨-, hn0, hnlt⟩
        rcases h1 with h | h
        · omega
        · omega
    · push_neg at h1
      obtain ⟨hn0, hnlt⟩ := h1
      have hloop := Searches.quickSelectLoop_ok compare choose arr href
        arr.length arr (n.toNat + 1) (fun x hx => hx) (le_refl _)
        (by omega) (by omega)
      obtain ⟨x, hx, hmem⟩ := hloop
      have hqs : Searches.quickSelect compare choose arr n = .ok x := by
        rw [Searches.quickSelect, if_neg h0, if_neg (by push_neg; exact ⟨hn0, hnlt⟩), hx]
      constructor
      · rw [hqs]
        constructor
        · intro hcon
          exact Bool.noConfusion hcon
        · rintro (h | h | h)
          · exact absurd (by rw [h]; rfl) h0
          · omega
          · omega
      · intro _
        exact ⟨x, hqs, hmem⟩

/-- Witness for C10 at a concrete comparator, pivot chooser, array and
rank. -/
theorem claim_C10_quickselect_witness :
    (((Searches.quickSelect
        (fun a b : Nat =>
          if a < b then .less else if b < a then .greater else .equal)
        (fun _ => 0) [3, 1, 2] 1).isOk = false) ↔
      (([3, 1, 2] : List Nat) = [] ∨ (1 : Int) < 0 ∨ (([3, 1, 2] : List Nat).length : Int) ≤ 1)) ∧
    (∃ x, Searches.quickSelect
        (fun a b : Nat =>
          if a < b then .less else if b < a then .greater else .equal)
        (fun _ => 0) [3, 1, 2] 1 = .ok x ∧ x ∈ ([3, 1, 2] : List Nat)) := by
  have h := claim_C10_quickselect Nat
    (fun a b : Nat => if a < b then .less else if b < a then .greater else .equal)
    (fun _ => 0) [3, 1, 2] 1 (by decide)
  exact ⟨h.1, h.2 (by refine ⟨by decide, by decide, by decide⟩)⟩

/-- C2: every fallible list operation that fails leaves the container
exactly as it was: validation happens before any state is altered. -/
theorem claim_C2_failure_leaves_state :
    (∀ (l : Singly.SList Nat) (p : ListPos) (el : Nat) (e : ErrKind),
      (Singly.sAddAfter l p el).1 = .error e → (Singly.sAddAfter l p el).2 = l) ∧
    (∀ (l : Singly.SList Nat) (e : ErrKind),
      (Singly.sRemoveFirst l).1 = .error e → (Singly.sRemoveFirst l).2 = l) ∧
    (∀ (l : Singly.SList Nat) (p : ListPos) (el : Nat) (e : ErrKind),
      (Singly.sReplace l p el).1 = .error e → (Singly.sReplace l p el).2 = l) ∧
    (∀ (l : Singly.SList Nat) (p : ListPos), (Singly.sGetAfter l p).2 = l) ∧
    (∀ (l : Doubly.DList Nat) (p : ListPos) (el : Nat) (e : ErrKind),
      (Doubly.dAddAfter l p el).1 = .error e → (Doubly.dAddAfter l p el).2 = l) ∧
    (∀ (l : Doubly.DList Nat) (p : ListPos) (el : Nat) (e : ErrKind),
      (Doubly.dAddBefore l p el).1 = .error e → (Doubly.dAddBefore l p el).2 = l) ∧
    (∀ (l : Doubly.DList Nat) (p : ListPos) (e : ErrKind),
      (Doubly.dDelete l p).1 = .error e → (Doubly.dDelete l p).2 = l) ∧
    (∀ (l : Doubly.DList Nat) (p : ListPos) (el : Nat) (e : ErrKind),
      (Doubly.dReplace l p el).1 = .error e → (Doubly.dReplace l p el).2 = l) ∧
    (∀ (l : Doubly.DList Nat) (e : ErrKind),
      (Doubly.dRemoveFirst l).1 = .error e → (Doubly.dRemoveFirst l).2 = l) ∧
    (∀ (l : Doubly.DList Nat) (e : ErrKind),
      (Doubly.dRemoveLast l).1 = .error e → (Doubly.dRemoveLast l).2 = l) ∧
    (∀ (l : Doubly.DList Nat) (p : ListPos), (Doubly.dGetAfter l p).2 = l) ∧
    (∀ (l : Doubly.DList Nat) (p : ListPos), (Doubly.dGetBefore l p).2 = l) :=
  ⟨fun _ _ _ _ h => Singly.sAddAfter_error h,
   fun _ _ h => Singly.sRemoveFirst_error h,
   fun _ _ _ _ h => Singly.sReplace_error h,
   fun l p => Singly.sGetAfter_state l p,
   fun _ _ _ _ h => Doubly.dAddAfter_error h,
   fun _ _ _ _ h => Doubly.dAddBefore_error h,
   fun _ _ _ h => Doubly.dDelete_error h,
   fun _ _ _ _ h => Doubly.dReplace_error h,
   fun _ _ h => Doubly.dRemoveFirst_error h,
   fun _ _ h => Doubly.dRemoveLast_error h,
   fun l p => Doubly.dGetAfter_state l p,
   fun l p => Doubly.dGetBefore_state l p⟩

/-- Witness for C2 at concrete failing calls. -/
theorem claim_C2_witness :
    (Singly.sAddAfter (Singly.sFromArray ([] : List Nat)) ⟨0, 0⟩ 5).2 =
      Singly.sFromArray ([] : List Nat) ∧
    (Singly.sRemoveFirst (Singly.sFromArray ([] : List Nat))).2 =
      Singly.sFromArray ([] : List Nat) ∧
    (Doubly.dDelete (Doubly.dFromArray ([] : List Nat)) ⟨0, 0⟩).2 =
      Doubly.dFromArray ([] : List Nat) ∧
    (Doubly.dRemoveLast (Doubly.dFromArray ([] : List Nat))).2 =
      Doubly.dFromArray ([] : List Nat) :=
  ⟨claim_C2_failure_leaves_state.1 _ ⟨0, 0⟩ 5 .invalidPosition rfl,
   claim_C2_failure_leaves_state.2.1 _ .emptyContainer rfl,
   claim_C2_failure_leaves_state.2.2.2.2.2.2.1 _ ⟨0, 0⟩ .invalidPosition rfl,
   claim_C2_failure_leaves_state.2.2.2.2.2.2.2.2.2.1 _ .emptyContainer rfl⟩

/-- C5: `clear with instant false` empties the list and deprecates every
node reachable from the old head (so outstanding Positions on the list
fail validation afterwards); `clear with instant true` only resets
head/tail/size, leaving the arena — and so every previously reachable
node's non-deprecated status — untouched. -/
theorem claim_C5_clear :
    (∀ (ops : List (Singly.SOp Nat)),
      (Singly.sClear (Singly.sRun ops) false).head = none ∧
      (Singly.sClear (Singly.sRun ops) false).tail = none ∧
      (Singly.sClear (Singly.sRun ops) false).size = 0 ∧
      (Singly.sClear (Singly.sRun ops) true).head = none ∧
      (Singly.sClear (Singly.sRun ops) true).tail = none ∧
      (Singly.sClear (Singly.sRun ops) true).size = 0 ∧
      (Singly.sClear (Singly.sRun ops) true).nodes = (Singly.sRun ops).nodes ∧
      (∀ i ∈ Singly.sReach (Singly.sRun ops),
        Singly.sIsDeprecated (Singly.sClear (Singly.sRun ops) false).nodes i = true) ∧
      (∀ p : ListPos, p.node ∈ Singly.sReach (Singly.sRun ops) →
        Singly.sValidate (Singly.sClear (Singly.sRun ops) false) p =
          .error .invalidPosition) ∧
      (∀ i ∈ Singly.sReach (Singly.sRun ops),
        Singly.sIsDeprecated (Singly.sClear (Singly.sRun ops) true).nodes i = false)) ∧
    (∀ (ops : List (Doubly.DOp Nat)),
      (Doubly.dClear (Doubly.dRun ops) false).head = none ∧
      (Doubly.dClear (Doubly.dRun ops) false).tail = none ∧
      (Doubly.dClear (Doubly.dRun ops) false).size = 0 ∧
      (Doubly.dClear (Doubly.dRun ops) true).head = none ∧
      (Doubly.dClear (Doubly.dRun ops) true).tail = none ∧
      (Doubly.dClear (Doubly.dRun ops) true).size = 0 ∧
      (Doubly.dClear (Doubly.dRun ops) true).nodes = (Doubly.dRun ops).nodes ∧
      (∀ i ∈ Doubly.dReach (Doubly.dRun ops),
        Doubly.dIsDeprecated (Doubly.dClear (Doubly.dRun ops) false).nodes i = true) ∧
      (∀ p : ListPos, p.node ∈ Doubly.dReach (Doubly.dRun ops) →
        Doubly.dValidate (Doubly.dClear (Doubly.dRun ops) false) p =
          .error .invalidPosition) ∧
      (∀ i ∈ Doubly.dReach (Doubly.dRun ops),
        Doubly.dIsDeprecated (Doubly.dClear (Doubly.dRun ops) true).nodes i = false)) := by
  constructor
  · intro ops
    obtain ⟨ids, hwf⟩ := Singly.sRun_SWF ops
    obtain ⟨hwf0, hdep, hh, ht, hs⟩ := Singly.sClear_false_spec hwf
    have hreach := Singly.sReach_eq hwf
    refine ⟨hh, ht, hs, rfl, rfl, rfl, rfl, ?_, ?_, ?_⟩
    · intro i hi
      exact hdep i (hreach ▸ hi)
    · intro p hp
      exact Singly.sValidate_error_of_deprecated (hdep p.node (hreach ▸ hp))
    · intro i hi
      exact Singly.sLive_false hwf i (hreach ▸ hi)
  · intro ops
    obtain ⟨ids, hwf⟩ := Doubly.dRun_DWF ops
    obtain ⟨hwf0, hdep, hh, ht, hs⟩ := Doubly.dClear_false_spec hwf
    have hreach := Doubly.dReach_eq hwf
    refine ⟨hh, ht, hs, rfl, rfl, rfl, rfl, ?_, ?_, ?_⟩
    · intro i hi
      exact hdep i (hreach ▸ hi)
    · intro p hp
      exact Doubly.dValidate_error_of_deprecated (hdep p.node (hreach ▸ hp))
    · intro i hi
      exact Doubly.dLive_false hwf i (hreach ▸ hi)

/-- Witness for C5 on a one-element list. -/
theorem claim_C5_witness :
    Singly.sIsDeprecated
      (Singly.sClear (Singly.sRun [Singly.SOp.addFirst 7]) false).nodes 0 = true ∧
    Singly.sValidate (Singly.sClear (Singly.sRun [Singly.SOp.addFirst 7]) false) ⟨0, 0⟩ =
      .error .invalidPosition ∧
    Doubly.dIsDeprecated
      (Doubly.dClear (Doubly.dRun [Doubly.DOp.addFirst 7]) false).nodes 0 = true ∧
    Doubly.dIsDeprecated
      (Doubly.dClear (Doubly.dRun [Doubly.DOp.addFirst 7]) true).nodes 0 = false :=
  ⟨(claim_C5_clear.1 [Singly.SOp.addFirst 7]).2.2.2.2.2.2.2.1 0 (by decide),
   (claim_C5_clear.1 [Singly.SOp.addFirst 7]).2.2.2.2.2.2.2.2.1 ⟨0, 0⟩ (by decide),
   (claim_C5_clear.2 [Doubly.DOp.addFirst 7]).2.2.2.2.2.2.2.1 0 (by decide),
   (claim_C5_clear.2 [Doubly.DOp.addFirst 7]).2.2.2.2.2.2.2.2.2 0 (by decide)⟩

/-- C6: in every doubly linked list reachable by a sequence of its public
operations, the back link mirrors the forward link on the nodes reachable
from head: `node.next.prev == node`, and symmetrically `node.prev.next ==
node` for every non-head reachable node. -/
theorem claim_C6_doubly_symmetry :
    ∀ (ops : List (Doubly.DOp Nat)) (i j : Nat),
      (i ∈ Doubly.dReach (Doubly.dRun ops) →
        Doubly.dNextOf (Doubly.dRun ops) i = some j →
        Doubly.dPrevOf (Doubly.dRun ops) j = some i) ∧
      (j ∈ Doubly.dReach (Doubly.dRun ops) →
        Doubly.dPrevOf (Doubly.dRun ops) j = some i →
        Doubly.dNextOf (Doubly.dRun ops) i = some j) := by
  intro ops i j
  obtain ⟨ids, hwf⟩ := Doubly.dRun_DWF ops
  have hreach := Doubly.dReach_eq hwf
  have hc := hwf.2.2.1
  constructor
  · intro hi hnext
    rw [hreach] at hi
    cases hgi : (Doubly.dRun ops).nodes.get? i with
    | none =>
      rw [Doubly.dNextOf, hgi] at hnext
      cases hnext
    | some ndi =>
      rw [Doubly.dNextOf, hgi] at hnext
      dsimp only [Option.bind] at hnext
      obtain ⟨ndj, hgj, hpj⟩ := Doubly.dChain_next_prev hc i ndi j hi hgi hnext
      rw [Doubly.dPrevOf, hgj]
      dsimp only [Option.bind]
      rw [hpj]
  · intro hj hprev
    rw [hreach] at hj
    cases hgj : (Doubly.dRun ops).nodes.get? j with
    | none =>
      rw [Doubly.dPrevOf, hgj] at hprev
      cases hprev
    | some ndj =>
      rw [Doubly.dPrevOf, hgj] at hprev
      dsimp only [Option.bind] at hprev
      obtain ⟨ndi, hgi, hni⟩ := Doubly.dChain_prev_next hc
        (fun i' hpv => Option.noConfusion hpv) j ndj i hj hgj hprev
      rw [Doubly.dNextOf, hgi]
      dsimp only [Option.bind]
      rw [hni]

/-- Witness for C6 on a two-element list. -/
theorem claim_C6_witness :
    Doubly.dPrevOf (Doubly.dRun [Doubly.DOp.addLast 1, Doubly.DOp.addLast 2]) 1 = some 0 ∧
    Doubly.dNextOf (Doubly.dRun [Doubly.DOp.addLast 1, Doubly.DOp.addLast 2]) 0 = some 1 :=
  ⟨(claim_C6_doubly_symmetry [Doubly.DOp.addLast 1, Doubly.DOp.addLast 2] 0 1).1
      (by decide) (by decide),
   (claim_C6_doubly_symmetry [Doubly.DOp.addLast 1, Doubly.DOp.addLast 2] 0 1).2
      (by decide) (by decide)⟩

/-- C9: in every reachable list state (both variants) the tail reference
names the last node reachable from head; in particular `addAfter` at the
position of the current last element updates tail, so a following
`getLast` returns a position holding the newly added element. -/
theorem claim_C9_tail_tracking :
    (∀ (ops : List (Singly.SOp Nat)),
      (Singly.sRun ops).tail = (Singly.sReach (Singly.sRun ops)).getLast?) ∧
    (∀ (ops : List (Doubly.DOp Nat)),
      (Doubly.dRun ops).tail = (Doubly.dReach (Doubly.dRun ops)).getLast?) ∧
    (∀ (ops : List (Singly.SOp Nat)) (p : ListPos) (el t : Nat),
      (Singly.sRun ops).tail = some t → p.node = t →
      (Singly.sValidate (Singly.sRun ops) p).isOk = true →
      ∃ q, (Singly.sAddAfter (Singly.sRun ops) p el).1 = .ok q ∧
        Singly.sGetLast (Singly.sAddAfter (Singly.sRun ops) p el).2 = some q ∧
        ((Singly.sAddAfter (Singly.sRun ops) p el).2.nodes.get? q.node).map
          Singly.SNode.element = some el) ∧
    (∀ (ops : List (Doubly.DOp Nat)) (p : ListPos) (el t : Nat),
      (Doubly.dRun ops).tail = some t → p.node = t →
      (Doubly.dValidate (Doubly.dRun ops) p).isOk = true →
      ∃ q, (Doubly.dAddAfter (Doubly.dRun ops) p el).1 = .ok q ∧
        Doubly.dGetLast (Doubly.dAddAfter (Doubly.dRun ops) p el).2 = some q ∧
        ((Doubly.dAddAfter (Doubly.dRun ops) p el).2.nodes.get? q.node).map
          Doubly.DNode.element = some el) := by
  refine ⟨?_, ?_, ?_, ?_⟩
  · intro ops
    obtain ⟨ids, hwf⟩ := Singly.sRun_SWF ops
    rw [Singly.sReach_eq hwf]
    exact hwf.2.2.2.1
  · intro ops
    obtain ⟨ids, hwf⟩ := Doubly.dRun_DWF ops
    rw [Doubly.dReach_eq hwf]
    exact hwf.2.2.2.1
  · intro ops p el t htail hpt hvOk
    obtain ⟨ids, hwf⟩ := Singly.sRun_SWF ops
    obtain ⟨nd, hv⟩ := Singly.sValidate_isOk_elim hvOk
    obtain ⟨A, B, hAB, hres, helem, hlid, hwf'⟩ := Singly.sAddAfter_SWFon el hwf hv
    have hBnil : B = [] := by
      cases hB : B with
      | nil => rfl
      | cons b B' =>
        exfalso
        have htl := hwf.2.2.2.1
        rw [hAB, hB] at htl
        rw [htail] at htl
        rw [List.getLast?_append_of_ne_nil _ (by simp), List.getLast?_cons_cons] at htl
        have hlast := List.getLast?_eq_getLast (b :: B') (by simp)
        rw [hlast] at htl
        have ht2 : t = (b :: B').getLast (by simp) := by injection htl
        have hmem : t ∈ b :: B' := ht2 ▸ List.getLast_mem (by simp)
        have hnd := hwf.1
        rw [hAB, hB] at hnd
        simp only [List.nodup_append, List.nodup_cons] at hnd
        exact hnd.2.1.1 (hpt.symm ▸ hmem)
    subst hBnil
    refine ⟨⟨(Singly.sRun ops).nodes.length, (Singly.sRun ops).listId⟩, hres, ?_, ?_⟩
    · have htl' : (Singly.sAddAfter (Singly.sRun ops) p el).2.tail =
          some (Singly.sRun ops).nodes.length := by
        rw [hwf'.2.2.2.1]
        rw [List.getLast?_append_of_ne_nil _ (by simp), List.getLast?_cons_cons]
        rfl
      simp only [Singly.sGetLast, htl', Option.map_some', Singly.sCreatePosition, hlid]
    · exact helem
  · intro ops p el t htail hpt hvOk
    obtain ⟨ids, hwf⟩ := Doubly.dRun_DWF ops
    obtain ⟨nd, hv⟩ := Doubly.dValidate_isOk_elim hvOk
    obtain ⟨A, B, hAB, hprev, hnext⟩ := Doubly.dSplit_of_valid hwf hv
    obtain ⟨hres, helem, hlid, hwf'⟩ := Doubly.dAddAfter_spec el hwf hv hAB hprev hnext
    have hBnil : B = [] := by
      cases hB : B with
      | nil => rfl
      | cons b B' =>
        exfalso
        have htl := hwf.2.2.2.1
        rw [hAB, hB] at htl
        rw [htail] at htl
        rw [List.getLast?_append_of_ne_nil _ (by simp), List.getLast?_cons_cons] at htl
        have hlast := List.getLast?_eq_getLast (b :: B') (by simp)
        rw [hlast] at htl
        have ht2 : t = (b :: B').getLast (by simp) := by injection htl
        have hmem : t ∈ b :: B' := ht2 ▸ List.getLast_mem (by simp)
        have hnd := hwf.1
        rw [hAB, hB] at hnd
        simp only [List.nodup_append, List.nodup_cons] at hnd
        exact hnd.2.1.1 (hpt.symm ▸ hmem)
    subst hBnil
    refine ⟨⟨(Doubly.dRun ops).nodes.length, (Doubly.dRun ops).listId⟩, hres, ?_, ?_⟩
    · have htl' : (Doubly.dAddAfter (Doubly.dRun ops) p el).2.tail =
          some (Doubly.dRun ops).nodes.length := by
        rw [hwf'.2.2.2.1]
        rw [List.getLast?_append_of_ne_nil _ (by simp), List.getLast?_cons_cons]
        rfl
      simp only [Doubly.dGetLast, htl', Option.map_some', Doubly.dCreatePosition, hlid]
    · exact helem

/-- Witness for C9 on a one-element list. -/
theorem claim_C9_witness :
    (∃ q, (Singly.sAddAfter (Singly.sRun [Singly.SOp.addLast 1]) ⟨0, 0⟩ 9).1 = .ok q ∧
      Singly.sGetLast (Singly.sAddAfter (Singly.sRun [Singly.SOp.addLast 1]) ⟨0, 0⟩ 9).2 =
        some q ∧
      ((Singly.sAddAfter (Singly.sRun [Singly.SOp.addLast 1]) ⟨0, 0⟩ 9).2.nodes.get?
        q.node).map Singly.SNode.element = some 9) ∧
    (∃ q, (Doubly.dAddAfter (Doubly.dRun [Doubly.DOp.addLast 1]) ⟨0, 0⟩ 9).1 = .ok q ∧
      Doubly.dGetLast (Doubly.dAddAfter (Doubly.dRun [Doubly.DOp.addLast 1]) ⟨0, 0⟩ 9).2 =
        some q ∧
      ((Doubly.dAddAfter (Doubly.dRun [Doubly.DOp.addLast 1]) ⟨0, 0⟩ 9).2.nodes.get?
        q.node).map Doubly.DNode.element = some 9) :=
  ⟨claim_C9_tail_tracking.2.2.1 [Singly.SOp.addLast 1] ⟨0, 0⟩ 9 0 (by decide) rfl (by decide),
   claim_C9_tail_tracking.2.2.2 [Doubly.DOp.addLast 1] ⟨0, 0⟩ 9 0 (by decide) rfl (by decide)⟩

/-- C1: when an element is removed via `removeFirst` (singly), or
`removeFirst`/`removeLast`/`delete` (doubly), every Position referencing
the removed element subsequently fails validation with `InvalidPosition`
(the removed node being self-linked, which `isDeprecated` detects), while
every valid Position referencing a surviving element stays valid and
usable with `replace`. -/
theorem claim_C1_position_liveness :
    (∀ (ops : List (Singly.SOp Nat)) (p : ListPos) (x h0 : Nat),
      (Singly.sRun ops).head = some h0 →
      (Singly.sValidate (Singly.sRun ops) p).isOk = true →
      Singly.sIsDeprecated (Singly.sRemoveFirst (Singly.sRun ops)).2.nodes h0 = true ∧
      (p.node = h0 →
        Singly.sValidate (Singly.sRemoveFirst (Singly.sRun ops)).2 p =
          .error .invalidPosition) ∧
      (p.node ≠ h0 →
        (Singly.sValidate (Singly.sRemoveFirst (Singly.sRun ops)).2 p).isOk = true ∧
        ((Singly.sReplace (Singly.sRemoveFirst (Singly.sRun ops)).2 p x).1).isOk = true)) ∧
    (∀ (ops : List (Doubly.DOp Nat)) (p : ListPos) (x h0 : Nat),
      (Doubly.dRun ops).head = some h0 →
      (Doubly.dValidate (Doubly.dRun ops) p).isOk = true →
      Doubly.dIsDeprecated (Doubly.dRemoveFirst (Doubly.dRun ops)).2.nodes h0 = true ∧
      (p.node = h0 →
        Doubly.dValidate (Doubly.dRemoveFirst (Doubly.dRun ops)).2 p =
          .error .invalidPosition) ∧
      (p.node ≠ h0 →
        (Doubly.dValidate (Doubly.dRemoveFirst (Doubly.dRun ops)).2 p).isOk = true ∧
        ((Doubly.dReplace (Doubly.dRemoveFirst (Doubly.dRun ops)).2 p x).1).isOk = true)) ∧
    (∀ (ops : List (Doubly.DOp Nat)) (p : ListPos) (x t0 : Nat),
      (Doubly.dRun ops).tail = some t0 →
      (Doubly.dValidate (Doubly.dRun ops) p).isOk = true →
      Doubly.dIsDeprecated (Doubly.dRemoveLast (Doubly.dRun ops)).2.nodes t0 = true ∧
      (p.node = t0 →
        Doubly.dValidate (Doubly.dRemoveLast (Doubly.dRun ops)).2 p =
          .error .invalidPosition) ∧
      (p.node ≠ t0 →
        (Doubly.dValidate (Doubly.dRemoveLast (Doubly.dRun ops)).2 p).isOk = true ∧
        ((Doubly.dReplace (Doubly.dRemoveLast (Doubly.dRun ops)).2 p x).1).isOk = true)) ∧
    (∀ (ops : List (Doubly.DOp Nat)) (p q : ListPos) (x : Nat),
      (Doubly.dValidate (Doubly.dRun ops) q).isOk = true →
      (Doubly.dValidate (Doubly.dRun ops) p).isOk = true →
      Doubly.dIsDeprecated (Doubly.dDelete (Doubly.dRun ops) q).2.nodes q.node = true ∧
      (p.node = q.node →
        Doubly.dValidate (Doubly.dDelete (Doubly.dRun ops) q).2 p =
          .error .invalidPosition) ∧
      (p.node ≠ q.node →
        (Doubly.dValidate (Doubly.dDelete (Doubly.dRun ops) q).2 p).isOk = true ∧
        ((Doubly.dReplace (Doubly.dDelete (Doubly.dRun ops) q).2 p x).1).isOk = true)) := by
  refine ⟨?_, ?_, ?_, ?_⟩
  · intro ops p x h0 hhd hvOk
    obtain ⟨ids, hwf⟩ := Singly.sRun_SWF ops
    obtain ⟨rest, hids, ⟨nd, hget, hres⟩, hwf', hdep, hpres⟩ :=
      Singly.sRemoveFirst_SWFon hwf hhd
    refine ⟨hdep, ?_, ?_⟩
    · intro hp
      apply Singly.sValidate_error_of_deprecated
      rw [hp]
      exact hdep
    · intro hp
      have hveq : Singly.sValidate (Singly.sRemoveFirst (Singly.sRun ops)).2 p =
          Singly.sValidate (Singly.sRun ops) p :=
        Singly.sValidate_eq_of_pres p (Singly.sRemoveFirst_listId _) (hpres p.node hp)
      exact ⟨by rw [hveq]; exact hvOk,
        Singly.sReplace_isOk_of_valid x (by rw [hveq]; exact hvOk)⟩
  · intro ops p x h0 hhd hvOk
    obtain ⟨ids, hwf⟩ := Doubly.dRun_DWF ops
    obtain ⟨rest, nd, hids, hget, hres, hlid, hwf', hdep, hdeppres, hsomepres⟩ :=
      Doubly.dRemoveFirst_spec hwf hhd
    refine ⟨hdep, ?_, ?_⟩
    · intro hp
      apply Doubly.dValidate_error_of_deprecated
      rw [hp]
      exact hdep
    · intro hp
      have hveq := @Doubly.dValidate_isOk_of_pres Nat (Doubly.dRun ops)
        (Doubly.dRemoveFirst (Doubly.dRun ops)).2 p hlid
        (hsomepres p.node hp) (hdeppres p.node hp)
      exact ⟨by rw [hveq]; exact hvOk,
        Doubly.dReplace_isOk_of_valid x (by rw [hveq]; exact hvOk)⟩
  · intro ops p x t0 htt hvOk
    obtain ⟨ids, hwf⟩ := Doubly.dRun_DWF ops
    obtain ⟨init, nd, hids, hget, hres, hlid, hwf', hdep, hdeppres, hsomepres⟩ :=
      Doubly.dRemoveLast_spec hwf htt
    refine ⟨hdep, ?_, ?_⟩
    · intro hp
      apply Doubly.dValidate_error_of_deprecated
      rw [hp]
      exact hdep
    · intro hp
      have hveq := @Doubly.dValidate_isOk_of_pres Nat (Doubly.dRun ops)
        (Doubly.dRemoveLast (Doubly.dRun ops)).2 p hlid
        (hsomepres p.node hp) (hdeppres p.node hp)
      exact ⟨by rw [hveq]; exact hvOk,
        Doubly.dReplace_isOk_of_valid x (by rw [hveq]; exact hvOk)⟩
  · intro ops p q x hvq hvOk
    obtain ⟨ids, hwf⟩ := Doubly.dRun_DWF ops
    obtain ⟨ndq, hvq'⟩ := Doubly.dValidate_isOk_elim hvq
    obtain ⟨A, B, hAB, hres, hlid, hwf', hdep, hdeppres, hsomepres⟩ :=
      Doubly.dDelete_spec hwf hvq'
    refine ⟨hdep, ?_, ?_⟩
    · intro hp
      apply Doubly.dValidate_error_of_deprecated
      rw [hp]
      exact hdep
    · intro hp
      have hveq := @Doubly.dValidate_isOk_of_pres Nat (Doubly.dRun ops)
        (Doubly.dDelete (Doubly.dRun ops) q).2 p hlid
        (hsomepres p.node hp) (hdeppres p.node hp)
      exact ⟨by rw [hveq]; exact hvOk,
        Doubly.dReplace_isOk_of_valid x (by rw [hveq]; exact hvOk)⟩

/-- Witness for C1 on concrete two- and three-element lists. -/
theorem claim_C1_witness :
    Singly.sValidate
      (Singly.sRemoveFirst (Singly.sRun [Singly.SOp.addLast 1, Singly.SOp.addLast 2])).2
      ⟨0, 0⟩ = .error .invalidPosition ∧
    (Singly.sValidate
      (Singly.sRemoveFirst (Singly.sRun [Singly.SOp.addLast 1, Singly.SOp.addLast 2])).2
      ⟨1, 0⟩).isOk = true ∧
    Doubly.dIsDeprecated
      (Doubly.dDelete (Doubly.dRun [Doubly.DOp.addLast 1, Doubly.DOp.addLast 2,
        Doubly.DOp.addLast 3]) ⟨1, 0⟩).2.nodes 1 = true ∧
    (Doubly.dValidate
      (Doubly.dDelete (Doubly.dRun [Doubly.DOp.addLast 1, Doubly.DOp.addLast 2,
        Doubly.DOp.addLast 3]) ⟨1, 0⟩).2 ⟨2, 0⟩).isOk = true :=
  ⟨((claim_C1_position_liveness.1 [Singly.SOp.addLast 1, Singly.SOp.addLast 2]
      ⟨0, 0⟩ 9 0 (by decide) (by decide)).2.1 rfl),
   ((claim_C1_position_liveness.1 [Singly.SOp.addLast 1, Singly.SOp.addLast 2]
      ⟨1, 0⟩ 9 0 (by decide) (by decide)).2.2 (by decide)).1,
   (claim_C1_position_liveness.2.2.2 [Doubly.DOp.addLast 1, Doubly.DOp.addLast 2,
      Doubly.DOp.addLast 3] ⟨2, 0⟩ ⟨1, 0⟩ 9 (by decide) (by decide)).1,
   ((claim_C1_position_liveness.2.2.2 [Doubly.DOp.addLast 1, Doubly.DOp.addLast 2,
      Doubly.DOp.addLast 3] ⟨2, 0⟩ ⟨1, 0⟩ 9 (by decide) (by decide)).2.2 (by decide)).1⟩

end AdsJs
